import Mathlib

/-!
Verification of the takuzu puzzle library (McKael/takuzu).

This file gives a shallow embedding of the Go package: the board model
(takuzu.go), the line/column range checks and whole-board validator, the
trivial deducer (guessPos, TrySolveTrivial), the recursive solver
(TrySolveRecurse) and the parameter validation of the board generator
(build.go).  Go's mutable boards are modelled by value passing: every
method that can update its receiver returns the updated board.  Machine
integers are Nat or Int; Go errors are Option/Except values carrying the
source's message or an inductive error type mirroring the distinct error
messages of the source.
-/

/-- Cell is a single cell of a Takuzu game board.  Go stores Value as an
int; every write in the package keeps it in 0/1, so it is a Bool here
(false is 0, true is 1). -/
structure Cell where
  defined : Bool
  value : Bool
deriving DecidableEq, Repr

/-- Takuzu is a Takuzu game board (Size x Size). -/
structure Takuzu where
  size : Nat
  board : List (List Cell)
deriving DecidableEq, Repr

/-- Shape invariant of a board built by New or NewFromString: the grid is
square with side size (Go's slices have exactly this shape on every path
of the package). -/
def Takuzu.WF (b : Takuzu) : Prop :=
  b.board.length = b.size ∧ ∀ row ∈ b.board, row.length = b.size

instance (b : Takuzu) : Decidable b.WF := by
  unfold Takuzu.WF; infer_instance

/-- New creates a new Takuzu board (undefined cells are Go's zero value). -/
def New (size : Nat) : Takuzu :=
  ⟨size, List.replicate size (List.replicate size ⟨false, false⟩)⟩

/-- Character parsing of NewFromString's switch: 0/O and 1/I define the
cell, a dot leaves it at the zero value, anything else is a failure. -/
def parseTakChar (ch : Char) : Option Cell :=
  if ch = '0' ∨ ch = 'O' then some ⟨true, false⟩
  else if ch = '1' ∨ ch = 'I' then some ⟨true, true⟩
  else if ch = '.' then some ⟨false, false⟩
  else none

/-- One row of size cells, parsed left to right (first bad char fails). -/
def parseRowChars (cs : List Char) : Option (List Cell) :=
  cs.mapM parseTakChar

/-- The rows of the board, parsed in row-major order as NewFromString's
nested loop does. -/
def parseRowsChars (n : Nat) : Nat → List Char → Option (List (List Cell))
  | 0, _ => some []
  | k + 1, cs => do
      let row ← parseRowChars (cs.take n)
      let rest ← parseRowsChars n k (cs.drop n)
      pure (row :: rest)

/-- Integer square root: the largest k with k * k at most n, which is
what Go's int(math.Sqrt(float64(l))) computes on the exact board lengths
in play (the float square root is exact there). -/
def intSqrt (n : Nat) : Nat :=
  ((List.range (n + 1)).filter fun k => k * k ≤ n).length - 1

/-- NewFromString creates a new Takuzu board from a string definition.
The length must be a perfect square at least 4. -/
def NewFromString (s : List Char) : Except String Takuzu :=
  let l := s.length
  if l < 4 then .error "bad string length"
  else
    let size := intSqrt l
    if size * size ≠ l then .error "bad string length"
    else
      match parseRowsChars size size s with
      | some rows => .ok ⟨size, rows⟩
      | none => .error "invalid char in string"

/-- Rendering of one cell in ToString: the digit when defined, else a dot. -/
def cellChar (c : Cell) : Char :=
  if c.defined then (if c.value then '1' else '0') else '.'

/-- Cell access b.Board[l][c].  Go panics out of range; the claims only use
it in range (out of range it yields the zero cell here). -/
def Takuzu.getCell (b : Takuzu) (l c : Nat) : Cell :=
  (b.board.getD l []).getD c ⟨false, false⟩

/-- ToString converts a takuzu board to its string representation,
row-major over the size x size indices exactly as the Go loops do. -/
def Takuzu.ToString (b : Takuzu) : List Char :=
  (List.range b.size).flatMap fun l =>
    (List.range b.size).map fun c => cellChar (b.getCell l c)

/-- Clone returns a copy of the Takuzu board.  Go builds an independent
deep copy of the same contents; with value semantics that copy is the
board itself, and mutation is modelled by explicit state passing. -/
def Takuzu.Clone (b : Takuzu) : Takuzu := b

/-- Copy copies a Takuzu board to another existing board (the result is
the destination's final state).  On size mismatch Go reports an error and
writes nothing; on equal sizes the element-wise copy replaces the whole
grid of the destination. -/
def Copy (src dst : Takuzu) : Takuzu :=
  if src.size = dst.size then { dst with board := src.board } else dst

/-- Set sets the value of a specific cell; a value other than 0 or 1 marks
the cell undefined (keeping its stored Value, as the Go code does). -/
def Takuzu.Set (b : Takuzu) (l c : Nat) (value : Int) : Takuzu :=
  if value ≠ 0 ∧ value ≠ 1 then
    { b with
      board := b.board.set l ((b.board.getD l []).set c ⟨false, (b.getCell l c).value⟩) }
  else
    { b with
      board := b.board.set l ((b.board.getD l []).set c ⟨true, value == 1⟩) }

/-- GetLine returns the cells of the ith line of the board. -/
def Takuzu.GetLine (b : Takuzu) (i : Nat) : List Cell :=
  b.board.getD i []

/-- GetColumn returns the cells of the ith column of the board. -/
def Takuzu.GetColumn (b : Takuzu) (i : Nat) : List Cell :=
  b.board.map fun row => row.getD i ⟨false, false⟩

/-- Number of defined cells of value v in a range (the n counters of the
source's loops). -/
def countVal (v : Bool) (r : List Cell) : Nat :=
  (r.filter fun x => x.defined && x.value == v).length

/-- The fillRange closure of FillLineColumn: if the range is not full and
one value already has size/2 occurrences, fill every undefined cell with
the other value. -/
def fillRange (r : List Cell) : List Cell :=
  let size := r.length
  let n0 := countVal false r
  let n1 := countVal true r
  let notFull := r.any fun x => !x.defined
  if !notFull then r
  else if n0 = size / 2 then r.map fun x => if x.defined then x else ⟨true, true⟩
  else if n1 = size / 2 then r.map fun x => if x.defined then x else ⟨true, false⟩
  else r

/-- Replace line l of the board (the effect of writing through the line's
cell pointers). -/
def Takuzu.setLine (b : Takuzu) (l : Nat) (row : List Cell) : Takuzu :=
  { b with board := b.board.set l row }

/-- Replace column c of the board (the effect of writing through the
column's cell pointers). -/
def Takuzu.setColumn (b : Takuzu) (c : Nat) (cells : List Cell) : Takuzu :=
  { b with board := List.zipWith (fun row x => row.set c x) b.board cells }

/-- FillLineColumn adds missing 0s or 1s if all 1s or 0s are there, first
on line l, then on column c of the updated board. -/
def Takuzu.FillLineColumn (b : Takuzu) (l c : Nat) : Takuzu :=
  let b1 := b.setLine l (fillRange (b.GetLine l))
  b1.setColumn c (fillRange (b1.GetColumn c))

/-- The two validation failures checkRange can signal, by the source's
distinct messages: "3+ same values v" and "too many zeroes"/"too many
ones" (the Bool is the value counted too often, false for 0). -/
inductive CheckErr where
  | threeAdjacent (v : Bool)
  | tooMany (v : Bool)
deriving DecidableEq, Repr

/-- The loop of checkRange: full is the running completeness flag, c0 and
c1 the value counters, pcc the current run length over defined cells
(reset on an undefined cell) and pv the previous defined cell's value
(only read when pcc is nonzero). -/
def checkRangeAux (size : Nat) :
    List Cell → Bool → Nat → Nat → Nat → Bool → Bool × Option CheckErr
  | [], full, c0, c1, _, _ =>
    if size / 2 < c0 then (full, some (.tooMany false))
    else if size / 2 < c1 then (full, some (.tooMany true))
    else (full, none)
  | c :: rest, full, c0, c1, pcc, pv =>
    if !c.defined then checkRangeAux size rest false c0 c1 0 pv
    else
      let c0' := if c.value then c0 else c0 + 1
      let c1' := if c.value then c1 + 1 else c1
      if pcc = 0 then checkRangeAux size rest full c0' c1' 1 c.value
      else if c.value = pv then
        if 2 < pcc + 1 then (full, some (.threeAdjacent c.value))
        else checkRangeAux size rest full c0' c1' (pcc + 1) c.value
      else checkRangeAux size rest full c0' c1' 1 c.value

/-- checkRange returns true if the range is completely defined, and an
error if it does not follow the rules for a takuzu line or column.  The
boolean might be invalid if the error is not nil. -/
def checkRange (cells : List Cell) : Bool × Option CheckErr :=
  checkRangeAux cells.length cells true 0 0 0 false

/-- CheckLine returns an error if the line i fails validation. -/
def Takuzu.CheckLine (b : Takuzu) (i : Nat) : Option CheckErr :=
  (checkRange (b.GetLine i)).2

/-- CheckColumn returns an error if the column i fails validation. -/
def Takuzu.CheckColumn (b : Takuzu) (i : Nat) : Option CheckErr :=
  (checkRange (b.GetColumn i)).2

/-- Validation errors of the whole-board validator: a range error wrapped
with the scanned axis and index, or a duplicate full line/column. -/
inductive Axis where
  | line
  | column
deriving DecidableEq, Repr

/-- Validate's error: the wrapped checkRange failure or a duplicate. -/
inductive ValidateErr where
  | range (a : Axis) (i : Nat) (e : CheckErr)
  | duplicate (a : Axis) (i : Nat)
deriving DecidableEq, Repr

/-- The computeVal closure of Validate: the fingerprint of a full line,
sum of value_i * 2^i (written recursively; v + 2 * rest is the same sum). -/
def computeVal : List Cell → Nat
  | [] => 0
  | c :: rest => (if c.value then 1 else 0) + 2 * computeVal rest

/-- The loop of Validate over indices i, carrying the fingerprints of the
full lines and columns already seen and the completeness flag. -/
def Takuzu.ValidateLoop (b : Takuzu) :
    Nat → Nat → List Nat → List Nat → Bool → Bool × Option ValidateErr
  | 0, _, _, _, finished => (finished, none)
  | k + 1, i, lineVals, colVals, finished =>
    let dL := b.GetLine i
    match (checkRange dL).2 with
    | some e => (false, some (.range .line i e))
    | none =>
      let fullL := (checkRange dL).1
      let hvL := computeVal dL
      if fullL && lineVals.contains hvL then (false, some (.duplicate .line i))
      else
        let lineVals' := if fullL then hvL :: lineVals else lineVals
        let dC := b.GetColumn i
        match (checkRange dC).2 with
        | some e => (false, some (.range .column i e))
        | none =>
          let fullC := (checkRange dC).1
          let hvC := computeVal dC
          if fullC && colVals.contains hvC then (false, some (.duplicate .column i))
          else
            b.ValidateLoop k (i + 1) lineVals'
              (if fullC then hvC :: colVals else colVals)
              (finished && fullL && fullC)

/-- Validate checks a whole board for errors (not completeness); the
boolean is true if all cells are defined. -/
def Takuzu.Validate (b : Takuzu) : Bool × Option ValidateErr :=
  b.ValidateLoop b.size 0 [] [] true

/-- Row-major list of all cell positions of an n x n board, the order of
the nested line/column loops of the package. -/
def allPositions (n : Nat) : List (Nat × Nat) :=
  (List.range n).flatMap fun l => (List.range n).map fun c => (l, c)

/-- Number of undefined cells of the board (the measure every deduction
and branching step decreases). -/
def Takuzu.undefCount (b : Takuzu) : Nat :=
  ((allPositions b.size).filter fun p => !(b.getCell p.1 p.2).defined).length

/-- guessPos: the value of a defined cell; otherwise try 0 on a clone,
complete the line and column, and if the line or column now fails its
check the cell must be 1; reset the clone from b (the source's Copy), try
1, and if the check now fails the cell must be 0; else -1 for unknown. -/
def Takuzu.guessPos (b : Takuzu) (l c : Nat) : Int :=
  if (b.getCell l c).defined then (if (b.getCell l c).value then 1 else 0)
  else
    let bx := ((b.Clone.Set l c 0).FillLineColumn l c)
    if (bx.CheckLine l).isSome || (bx.CheckColumn c).isSome then 1
    else
      let bx := (((Copy b bx).Set l c 1).FillLineColumn l c)
      if (bx.CheckLine l).isSome || (bx.CheckColumn c).isSome then 0
      else -1

/-- One cell of trySolveTrivialPass's sweep: skip a defined cell, commit
a successful guess in place and raise the changed flag. -/
def passStep (st : Takuzu × Bool) (p : Nat × Nat) : Takuzu × Bool :=
  if ((st.1).getCell p.1 p.2).defined then st
  else
    let g := (st.1).guessPos p.1 p.2
    if g ≠ -1 then ((st.1).Set p.1 p.2 g, true) else st

/-- trySolveTrivialPass does one pass over the takuzu board and tries to
find values using simple guesses, committing each deduction in place; the
flag records whether anything was set. -/
def Takuzu.trySolveTrivialPass (b : Takuzu) : Takuzu × Bool :=
  (allPositions b.size).foldl passStep (b, false)

/-- The loop of TrySolveTrivial: repeat passes while one of them changed
the board.  The fuel argument bounds the iterations; every changing pass
defines at least one cell, so undefCount plus one is always enough. -/
def Takuzu.trivialLoop : Nat → Takuzu → Takuzu
  | 0, b => b
  | k + 1, b =>
    let (b', ch) := b.trySolveTrivialPass
    if ch then Takuzu.trivialLoop k b' else b'

/-- TrySolveTrivial tries to solve the takuzu using a loop over simple
methods; the result is the final board, whether all its cells are defined
and the validation error if the grid breaks the rules. -/
def Takuzu.TrySolveTrivial (b : Takuzu) : Takuzu × Bool × Option ValidateErr :=
  let b' := Takuzu.trivialLoop (b.undefCount + 1) b
  (b', (b'.Validate).1, (b'.Validate).2)

/-- TrivialHint returns the coordinates and the value of the first cell
that can be guessed using trivial methods, and -1,-1,-1 if none. -/
def Takuzu.TrivialHint (b : Takuzu) : Int × Int × Int :=
  match (allPositions b.size).find?
      (fun p => !(b.getCell p.1 p.2).defined && b.guessPos p.1 p.2 ≠ -1) with
  | some p => (p.1, p.2, b.guessPos p.1 p.2)
  | none => (-1, -1, -1)

/-- Solver control errors: a validation failure wrapped as "the takuzu
looks wrong", the dead end when both branch values failed, and the
timeout sentinel. -/
inductive SolveErr where
  | invalid (e : ValidateErr)
  | deadEnd
  | timeout
deriving DecidableEq, Repr

/-- The solver's shared solution state: the map from encoded board to
solution used for deduplication in global-search mode, and the single
solution pointer that every discovery updates. -/
structure SolState where
  map : List (List Char × Takuzu)
  single : Option Takuzu
deriving Repr

/-- Recording a found solution under the mutex: singleSolution is set and,
in global-search mode, the map entry for the board's encoding replaces
any previous one. -/
def recordSol (global : Bool) (t : Takuzu) (st : SolState) : SolState :=
  { single := some t,
    map := if global then
        (t.ToString, t) :: st.map.filter (fun p => p.1 ≠ t.ToString)
      else st.map }

/-- First undefined cell in row-major order (the firstClear search). -/
def Takuzu.firstUndef (b : Takuzu) : Option (Nat × Nat) :=
  (allPositions b.size).find? fun p => !(b.getCell p.1 p.2).defined

/-- End of recurseSolve's main loop: validate the board, record it when it
is full, report the wrapped error otherwise. -/
def finishNode (global : Bool) (t : Takuzu) (st : SolState) :
    SolState × Option SolveErr :=
  match t.Validate with
  | (_, some e) => (st, some (.invalid e))
  | (fullv, none) => (if fullv then recordSol global t st else st, none)

/-- The recursive closure of TrySolveRecurse, in its sequential form: the
package's Schrodinger level defaults to 0, so both branch goroutines of a
cell run one after the other and their channel results are read in order.
The wall-clock timeout is modelled by the fuel: exhaustion returns the
timeout sentinel, which propagates exactly as the source's timeout does.
In first-solution mode (global false) a failed 0-branch commits value 1
and the loop continues on the committed board, which is the same
computation as a fresh call on that board; in global mode both branches
always run, a failed branch commits the sibling value, and two failures
return the dead end. -/
def recurseSolve (global : Bool) : Nat → Takuzu → SolState → SolState × Option SolveErr
  | 0, _, st => (st, some .timeout)
  | fuel + 1, t, st =>
    let tr := t.TrySolveTrivial
    match tr.2.2 with
    | some e => (st, some (.invalid e))
    | none =>
      if tr.2.1 then (recordSol global tr.1 st, none)
      else
        match tr.1.firstUndef with
        | none => finishNode global tr.1 st
        | some (line, col) =>
          if global then
            let r0 := recurseSolve global fuel ((tr.1.Clone.Set line col 0)) st
            if r0.2 = some .timeout then (r0.1, some .timeout)
            else
              let t2 := if r0.2.isSome then tr.1.Set line col 1 else tr.1
              let r1 := recurseSolve global fuel ((t2.Clone.Set line col 1)) r0.1
              if r1.2 = some .timeout then (r1.1, some .timeout)
              else
                let t3 := if r1.2.isSome then t2.Set line col 0 else t2
                if r0.2.isSome ∧ r1.2.isSome then (r1.1, some .deadEnd)
                else finishNode global t3 r1.1
          else
            let r0 := recurseSolve global fuel ((tr.1.Clone.Set line col 0)) st
            match r0.2 with
            | none => (r0.1, none)
            | some .timeout => (r0.1, some .timeout)
            | some _ => recurseSolve global fuel (tr.1.Set line col 1) r0.1

/-- TrySolveRecurse tries to solve the takuzu recursively: first solution
in the returned pointer, and in global-search mode (a non-nil accumulator
in the source) the deduplicated solution list as well. -/
def Takuzu.TrySolveRecurse (b : Takuzu) (global : Bool) (fuel : Nat) :
    Option Takuzu × List Takuzu × Option SolveErr :=
  let r := recurseSolve global fuel b ⟨[], none⟩
  let sols := r.1.map.map fun p => p.2
  match r.2 with
  | some e => (r.1.single, sols, some e)
  | none =>
    if global ∧ sols ≠ [] then (sols.head?, sols, none)
    else (r.1.single, sols, none)

/-- Outcome of NewRandomTakuzu's parameter validation prefix: the error
returned before any board work, or the clamped ratio pair the generation
loop then starts from.  The loop itself retries newRandomTakuzu until a
board is produced and is driven by the process-wide random source, so it
is not part of this model. -/
inductive GenOutcome where
  | err (msg : String)
  | build (rMin rMax : Int)
deriving DecidableEq, Repr

/-- The checks at the top of NewRandomTakuzu, in source order: odd size,
size below 4, then the minimum ratio is raised to at least 40, the pair
is rejected if the minimum exceeds the maximum, and only afterwards the
maximum is clamped to 99. -/
def NewRandomTakuzuCheck (size : Int) (rMin rMax : Int) : GenOutcome :=
  if size % 2 ≠ 0 then .err "board size should be an even value"
  else if size < 4 then .err "board size is too small"
  else
    let rMin := if rMin < 40 then 40 else rMin
    if rMin > rMax then .err "minRatio/maxRatio incorrect"
    else
      let rMax := if rMax > 99 then 99 else rMax
      .build rMin rMax

/-- State-passing rendering of guessPos for the frame property: the
receiver board is threaded through the call and every mutating method of
the source updates the variable it is invoked on.  All trial writes (Set,
FillLineColumn) act on the clone bx, and the Copy reads b into bx, so the
receiver component of the result is exactly the board the caller keeps. -/
def Takuzu.guessPosSt (b : Takuzu) (l c : Nat) : Int × Takuzu :=
  if (b.getCell l c).defined then ((if (b.getCell l c).value then 1 else 0), b)
  else
    let bx := b.Clone
    let bx := (bx.Set l c 0).FillLineColumn l c
    if (bx.CheckLine l).isSome || (bx.CheckColumn c).isSome then (1, b)
    else
      let bx := Copy b bx
      let bx := (bx.Set l c 1).FillLineColumn l c
      if (bx.CheckLine l).isSome || (bx.CheckColumn c).isSome then (0, b)
      else (-1, b)

/-- State-passing rendering of TrivialHint's scan: the receiver is passed
to each guessPos call and the board guessPos hands back is the one the
scan continues on. -/
def trivialHintStAux (b : Takuzu) : List (Nat × Nat) → (Int × Int × Int) × Takuzu
  | [] => ((-1, -1, -1), b)
  | p :: rest =>
    if (b.getCell p.1 p.2).defined then trivialHintStAux b rest
    else
      let r := b.guessPosSt p.1 p.2
      if r.1 ≠ -1 then ((p.1, p.2, r.1), r.2) else trivialHintStAux r.2 rest

/-- TrivialHint with the receiver board threaded through. -/
def Takuzu.TrivialHintSt (b : Takuzu) : (Int × Int × Int) × Takuzu :=
  trivialHintStAux b (allPositions b.size)

/-- The run-length scan of checkRange isolated from the counters: the
value of the first run of three equal adjacent defined cells, given the
entry run length pcc over value pv, and none when no run reaches 3. -/
def scanTriple (pcc : Nat) (pv : Bool) : List Cell → Option Bool
  | [] => none
  | c :: rest =>
    if !c.defined then scanTriple 0 pv rest
    else if pcc = 0 then scanTriple 1 c.value rest
    else if c.value = pv then
      if 2 < pcc + 1 then some c.value else scanTriple (pcc + 1) c.value rest
    else scanTriple 1 c.value rest

/-- Three equal adjacent defined values occur somewhere in the range
(stated over indices, the way the claims put it). -/
def hasThreeAdjacent (cells : List Cell) : Prop :=
  ∃ i a b c, cells[i]? = some a ∧ cells[i + 1]? = some b ∧ cells[i + 2]? = some c ∧
    a.defined ∧ b.defined ∧ c.defined ∧ a.value = b.value ∧ b.value = c.value

/-- Three adjacent defined cells of value v occur somewhere in the range. -/
def hasThreeAdjacentVal (cells : List Cell) (v : Bool) : Prop :=
  ∃ i a b c, cells[i]? = some a ∧ cells[i + 1]? = some b ∧ cells[i + 2]? = some c ∧
    a.defined ∧ b.defined ∧ c.defined ∧ a.value = v ∧ b.value = v ∧ c.value = v

/-- What survives of a cell across the string codec: a defined cell keeps
its value, an undefined one decodes to the zero cell. -/
def normCell (c : Cell) : Cell :=
  if c.defined then c else ⟨false, false⟩

/-- Board s extends board base: same size, and every defined cell of base
is intact in s. -/
def Extends (base s : Takuzu) : Prop :=
  base.size = s.size ∧
    ∀ l c, (base.getCell l c).defined → s.getCell l c = base.getCell l c

/-- Invariant of the solver's solution state relative to the starting
board g: distinct keys, every entry keyed by its board's encoding, every
stored board a validated full well-formed extension of g. -/
def SolInv (g : Takuzu) (st : SolState) : Prop :=
  st.map.Pairwise (fun p q => p.1 ≠ q.1) ∧
    ∀ p ∈ st.map, p.1 = p.2.ToString ∧ p.2.Validate = (true, none) ∧
      p.2.WF ∧ Extends g p.2

/-- The scenario S1 puzzle string. -/
def s7 : List Char := "......0....0..1.......1.1.00..1.....".toList

/-- The scenario S1 expected solution string. -/
def t7 : List Char := "011001010110101100001011110010100101".toList

/-- A fully defined valid 4x4 board used to instantiate the universally
quantified theorems at a concrete input. -/
def w4 : Takuzu :=
  ⟨4, [[⟨true, false⟩, ⟨true, true⟩, ⟨true, true⟩, ⟨true, false⟩],
       [⟨true, true⟩, ⟨true, false⟩, ⟨true, false⟩, ⟨true, true⟩],
       [⟨true, false⟩, ⟨true, true⟩, ⟨true, false⟩, ⟨true, true⟩],
       [⟨true, true⟩, ⟨true, false⟩, ⟨true, true⟩, ⟨true, false⟩]]⟩

/-! ## Basic lemmas about cell access and updates -/

theorem getCell_eq (b : Takuzu) (l c : Nat) :
    b.getCell l c = (b.board[l]?.getD [])[c]?.getD ⟨false, false⟩ := by
  simp [Takuzu.getCell, List.getD_eq_getElem?_getD]

theorem size_Set (b : Takuzu) (l c : Nat) (v : Int) : (b.Set l c v).size = b.size := by
  unfold Takuzu.Set; split <;> rfl

theorem board_length_Set (b : Takuzu) (l c : Nat) (v : Int) :
    (b.Set l c v).board.length = b.board.length := by
  unfold Takuzu.Set; split <;> simp

theorem getCell_setBoard_ne (b : Takuzu) (l c : Nat) (x : Cell) {l' c' : Nat}
    (h : l' ≠ l ∨ c' ≠ c) :
    (Takuzu.mk b.size (b.board.set l ((b.board.getD l []).set c x))).getCell l' c' =
      b.getCell l' c' := by
  simp only [getCell_eq, List.getD_eq_getElem?_getD]
  rcases h with h | h
  · rw [List.getElem?_set_ne (fun he => h he.symm)]
  · by_cases hl : l' = l
    · subst hl
      by_cases hlen : l' < b.board.length
      · rw [List.getElem?_set_self hlen]
        simp [List.getElem?_set_ne (fun he => h he.symm)]
      · rw [List.set_eq_of_length_le (Nat.le_of_not_lt hlen)]
    · rw [List.getElem?_set_ne (fun he => hl he.symm)]

theorem getCell_Set_ne (b : Takuzu) (l c : Nat) (v : Int) {l' c' : Nat}
    (h : l' ≠ l ∨ c' ≠ c) :
    (b.Set l c v).getCell l' c' = b.getCell l' c' := by
  unfold Takuzu.Set
  split <;> exact getCell_setBoard_ne b l c _ h

theorem getCell_Set_self (b : Takuzu) (l c : Nat) (v : Int)
    (hl : l < b.board.length) (hc : c < (b.board.getD l []).length)
    (hv : v = 0 ∨ v = 1) :
    (b.Set l c v).getCell l c = ⟨true, v == 1⟩ := by
  unfold Takuzu.Set
  have hnv : ¬(v ≠ 0 ∧ v ≠ 1) := by rcases hv with h | h <;> simp [h]
  rw [if_neg hnv]
  simp only [getCell_eq, List.getD_eq_getElem?_getD] at *
  rw [List.getElem?_set_self hl]
  simp only [Option.getD_some]
  rw [List.getElem?_set_self (by simpa using hc)]
  rfl

theorem WF_Set (b : Takuzu) (l c : Nat) (v : Int) (h : b.WF) : (b.Set l c v).WF := by
  obtain ⟨h1, h2⟩ := h
  constructor
  · rw [board_length_Set, size_Set, h1]
  · intro row hrow
    rw [size_Set]
    by_cases hl : l < b.board.length
    · have hget : b.board.getD l [] ∈ b.board := by
        rw [List.getD_eq_getElem?_getD, List.getElem?_eq_getElem hl]
        exact List.getElem_mem hl
      unfold Takuzu.Set at hrow
      split at hrow <;>
      · simp only at hrow
        rcases List.mem_or_eq_of_mem_set hrow with hm | hm
        · exact h2 row hm
        · subst hm
          rw [List.length_set]
          exact h2 _ hget
    · unfold Takuzu.Set at hrow
      split at hrow <;>
      · simp only at hrow
        rw [List.set_eq_of_length_le (Nat.le_of_not_lt hl)] at hrow
        exact h2 row hrow

/-! ## C9: generator parameter validation -/

/-- C9: NewRandomTakuzu returns an error, before any board generation,
exactly when the size is odd, the size is below 4, or the minimum ratio
raised to at least 40 exceeds the maximum ratio; when the parameters pass,
generation starts from the raised minimum and the maximum clamped to 99
only after that comparison. -/
theorem newRandomTakuzu_param_errors (size rMin rMax : Int) :
    ((∃ msg, NewRandomTakuzuCheck size rMin rMax = .err msg) ↔
      (size % 2 ≠ 0 ∨ size < 4 ∨ max rMin 40 > rMax)) ∧
    (¬(size % 2 ≠ 0 ∨ size < 4 ∨ max rMin 40 > rMax) →
      NewRandomTakuzuCheck size rMin rMax = .build (max rMin 40) (min rMax 99)) := by
  have hm : max rMin 40 = if rMin < 40 then 40 else rMin := by split <;> omega
  have hn : min rMax 99 = if rMax > 99 then 99 else rMax := by split <;> omega
  unfold NewRandomTakuzuCheck
  rw [hm, hn]
  split_ifs <;> simp_all <;> split <;> simp_all

/-! ## C8: NewFromString failure modes -/

/-- C8 counterexample: the 14-character string of the claim is not of
perfect-square length, so NewFromString rejects it as a bad string length
and never reaches the invalid character. -/
theorem newFromString_c8_counterexample :
    NewFromString "...A..........".toList = .error "bad string length" ∧
    "bad string length" ≠ "invalid char in string" :=
  ⟨rfl, by decide⟩

/-- C8 amended: NewFromString of the claim's 14-character string fails
with the bad-string-length error (its length is not a perfect square, so
the character check is never reached), and NewFromString of any
5-character string fails with the bad-string-length error as well. -/
theorem newFromString_c8_amended (s : List Char) (h : s.length = 5) :
    NewFromString "...A..........".toList = .error "bad string length" ∧
    NewFromString s = .error "bad string length" := by
  refine ⟨rfl, ?_⟩
  unfold NewFromString
  simp only [h]
  rw [if_neg (by decide), if_pos (by decide)]

/-- Witness for the amended C8 at a concrete 5-character string. -/
theorem newFromString_c8_amended_witness :
    NewFromString "ABCDE".toList = .error "bad string length" :=
  (newFromString_c8_amended "ABCDE".toList (by decide)).2

/-! ## C4 and C10: guessPos -/

theorem size_setLine (b : Takuzu) (l : Nat) (row : List Cell) :
    (b.setLine l row).size = b.size := rfl

theorem size_setColumn (b : Takuzu) (c : Nat) (cells : List Cell) :
    (b.setColumn c cells).size = b.size := rfl

theorem size_FillLineColumn (b : Takuzu) (l c : Nat) :
    (b.FillLineColumn l c).size = b.size := rfl

theorem Copy_of_size_eq (b bx : Takuzu) (h : bx.size = b.size) : Copy b bx = b := by
  unfold Copy
  rw [if_pos h.symm]
  show Takuzu.mk bx.size b.board = b
  rw [h]

/-- C4: guessPos returns the value of a defined cell; on an undefined
cell it answers 1 when the 0-trial (set on a clone, then line/column
completion) makes row l or column c fail checkRange, else 0 when the
1-trial on a fresh clone fails the same checks, else -1 for unknown. -/
theorem guessPos_spec (b : Takuzu) (l c : Nat) :
    ((b.getCell l c).defined →
      b.guessPos l c = (if (b.getCell l c).value then 1 else 0)) ∧
    (¬(b.getCell l c).defined →
      (let b0 := (b.Set l c 0).FillLineColumn l c
       let b1 := (b.Set l c 1).FillLineColumn l c
       if (checkRange (b0.GetLine l)).2.isSome ∨ (checkRange (b0.GetColumn c)).2.isSome then
         b.guessPos l c = 1
       else if (checkRange (b1.GetLine l)).2.isSome ∨ (checkRange (b1.GetColumn c)).2.isSome then
         b.guessPos l c = 0
       else b.guessPos l c = -1)) := by
  have hcopy : Copy b ((b.Clone.Set l c 0).FillLineColumn l c) = b :=
    Copy_of_size_eq _ _ (by rw [size_FillLineColumn, size_Set]; rfl)
  constructor
  · intro h
    unfold Takuzu.guessPos
    rw [if_pos h]
  · intro h
    unfold Takuzu.guessPos
    rw [if_neg h]
    dsimp only
    rw [hcopy]
    simp only [Takuzu.Clone, Takuzu.CheckLine, Takuzu.CheckColumn, Bool.or_eq_true]
    split_ifs <;> simp_all

/-- The receiver of the state-threaded guessPos comes back untouched. -/
theorem guessPosSt_snd (b : Takuzu) (l c : Nat) : (b.guessPosSt l c).2 = b := by
  unfold Takuzu.guessPosSt
  dsimp only
  split_ifs <;> rfl

/-- The state-threaded guessPos computes the same answer as guessPos. -/
theorem guessPosSt_fst (b : Takuzu) (l c : Nat) :
    (b.guessPosSt l c).1 = b.guessPos l c := by
  unfold Takuzu.guessPosSt Takuzu.guessPos
  dsimp only
  split_ifs <;> rfl

theorem trivialHintStAux_snd (ps : List (Nat × Nat)) (b : Takuzu) :
    (trivialHintStAux b ps).2 = b := by
  induction ps generalizing b with
  | nil => rfl
  | cons p rest ih =>
    unfold trivialHintStAux
    dsimp only
    split_ifs with h1 h2
    · exact ih b
    · exact guessPosSt_snd b p.1 p.2
    · rw [guessPosSt_snd b p.1 p.2]
      exact ih b

/-- C10: guessPos and the TrivialHint scan built on it leave the receiver
board unchanged: every trial assignment happens on a clone, so the
threaded receiver state comes back equal to the input board, and the
returned guess agrees with the plain rendering of guessPos. -/
theorem guessPos_frame (b : Takuzu) (l c : Nat) :
    (b.guessPosSt l c).2 = b ∧ (b.guessPosSt l c).1 = b.guessPos l c ∧
      b.TrivialHintSt.2 = b :=
  ⟨guessPosSt_snd b l c, guessPosSt_fst b l c,
    trivialHintStAux_snd (allPositions b.size) b⟩

/-! ## The checkRange characterization (C5) -/

theorem countVal_cons (v : Bool) (c : Cell) (rest : List Cell) :
    countVal v (c :: rest) =
      (if c.defined && c.value == v then 1 else 0) + countVal v rest := by
  unfold countVal
  rw [List.filter_cons]
  split <;> simp_all <;> omega

theorem hasThreeAdjacent_small (cells : List Cell) (h : cells.length < 3) :
    ¬ hasThreeAdjacent cells := by
  rintro ⟨i, a, b, c, h0, h1, h2, _⟩
  obtain ⟨hlt, -⟩ := List.getElem?_eq_some_iff.mp h2
  omega

theorem hasThreeAdjacent_cons (x : Cell) (t : List Cell) :
    hasThreeAdjacent (x :: t) ↔
      ((∃ b c, t[0]? = some b ∧ t[1]? = some c ∧ x.defined ∧ b.defined ∧ c.defined ∧
          x.value = b.value ∧ b.value = c.value) ∨ hasThreeAdjacent t) := by
  constructor
  · rintro ⟨i, a, b, c, h0, h1, h2, hda, hdb, hdc, hv1, hv2⟩
    match i, h0 with
    | 0, h0 =>
      left
      simp only [List.getElem?_cons_zero, Option.some.injEq] at h0
      subst h0
      exact ⟨b, c, by simpa using h1, by simpa using h2, hda, hdb, hdc, hv1, hv2⟩
    | (k + 1), h0 =>
      right
      exact ⟨k, a, b, c, by simpa using h0, by simpa using h1, by simpa using h2,
        hda, hdb, hdc, hv1, hv2⟩
  · rintro (⟨b, c, h0, h1, hdx, hdb, hdc, hv1, hv2⟩ | ⟨i, a, b, c, h0, h1, h2, hda, hdb, hdc, hv1, hv2⟩)
    · exact ⟨0, x, b, c, by simp, by simpa using h0, by simpa using h1,
        hdx, hdb, hdc, hv1, hv2⟩
    · exact ⟨i + 1, a, b, c, by simpa using h0, by simpa using h1, by simpa using h2,
        hda, hdb, hdc, hv1, hv2⟩

theorem hasThreeAdjacentVal_cons (x : Cell) (t : List Cell) (v : Bool) :
    hasThreeAdjacentVal (x :: t) v ↔
      ((∃ b c, t[0]? = some b ∧ t[1]? = some c ∧ x.defined ∧ b.defined ∧ c.defined ∧
          x.value = v ∧ b.value = v ∧ c.value = v) ∨ hasThreeAdjacentVal t v) := by
  constructor
  · rintro ⟨i, a, b, c, h0, h1, h2, hda, hdb, hdc, hv1, hv2, hv3⟩
    match i, h0 with
    | 0, h0 =>
      left
      simp only [List.getElem?_cons_zero, Option.some.injEq] at h0
      subst h0
      exact ⟨b, c, by simpa using h1, by simpa using h2, hda, hdb, hdc, hv1, hv2, hv3⟩
    | (k + 1), h0 =>
      right
      exact ⟨k, a, b, c, by simpa using h0, by simpa using h1, by simpa using h2,
        hda, hdb, hdc, hv1, hv2, hv3⟩
  · rintro (⟨b, c, h0, h1, hdx, hdb, hdc, hv1, hv2, hv3⟩ |
      ⟨i, a, b, c, h0, h1, h2, hda, hdb, hdc, hv1, hv2, hv3⟩)
    · exact ⟨0, x, b, c, by simp, by simpa using h0, by simpa using h1,
        hdx, hdb, hdc, hv1, hv2, hv3⟩
    · exact ⟨i + 1, a, b, c, by simpa using h0, by simpa using h1, by simpa using h2,
        hda, hdb, hdc, hv1, hv2, hv3⟩

theorem cell_eta (c : Cell) (hd : c.defined = true) : (⟨true, c.value⟩ : Cell) = c := by
  cases c
  simp_all

theorem scanTriple_none_iff (cells : List Cell) :
    (∀ pv, (scanTriple 0 pv cells = none ↔ ¬ hasThreeAdjacent cells)) ∧
    (∀ v, (scanTriple 1 v cells = none ↔ ¬ hasThreeAdjacent (⟨true, v⟩ :: cells))) ∧
    (∀ v, (scanTriple 2 v cells = none ↔
      ¬ hasThreeAdjacent (⟨true, v⟩ :: ⟨true, v⟩ :: cells))) := by
  induction cells with
  | nil =>
    exact ⟨fun pv => iff_of_true rfl (hasThreeAdjacent_small _ (by simp)),
      fun v => iff_of_true rfl (hasThreeAdjacent_small _ (by simp)),
      fun v => iff_of_true rfl (hasThreeAdjacent_small _ (by simp))⟩
  | cons c rest ih =>
    obtain ⟨ih0, ih1, ih2⟩ := ih
    refine ⟨fun pv => ?_, fun v => ?_, fun v => ?_⟩
    · by_cases hd : c.defined
      · rw [show scanTriple 0 pv (c :: rest) = scanTriple 1 c.value rest from by
          simp [scanTriple, hd]]
        rw [ih1 c.value, cell_eta c hd]
      · rw [show scanTriple 0 pv (c :: rest) = scanTriple 0 pv rest from by
          simp [scanTriple, hd]]
        rw [ih0 pv, hasThreeAdjacent_cons]
        simp [hd]
    · by_cases hd : c.defined
      · by_cases hv : c.value = v
        · subst hv
          rw [show scanTriple 1 c.value (c :: rest) = scanTriple 2 c.value rest from by
            simp [scanTriple, hd]]
          rw [ih2 c.value, cell_eta c hd]
        · rw [show scanTriple 1 v (c :: rest) = scanTriple 1 c.value rest from by
            simp [scanTriple, hd, hv]]
          rw [ih1 c.value, cell_eta c hd]
          rw [hasThreeAdjacent_cons (⟨true, v⟩ : Cell) (c :: rest)]
          apply not_congr
          constructor
          · exact Or.inr
          · rintro (⟨b, c', hb, hc', hxd, hbd, hcd, hv1, hv2⟩ | h2)
            · simp only [List.getElem?_cons_zero, Option.some.injEq] at hb
              subst hb
              exact absurd hv1.symm hv
            · exact h2
      · rw [show scanTriple 1 v (c :: rest) = scanTriple 0 v rest from by
          simp [scanTriple, hd]]
        rw [ih0 v]
        rw [hasThreeAdjacent_cons (⟨true, v⟩ : Cell) (c :: rest), hasThreeAdjacent_cons c rest]
        apply not_congr
        constructor
        · exact fun h => Or.inr (Or.inr h)
        · rintro (⟨b, c', hb, hc', hxd, hbd, hcd, hv1, hv2⟩ |
            ⟨b, c', hb, hc', hcd, hbd, hcd2, hv1, hv2⟩ | h2)
          · simp only [List.getElem?_cons_zero, Option.some.injEq] at hb
            subst hb
            exact absurd hbd (by simp [hd])
          · exact absurd hcd (by simp [hd])
          · exact h2
    · by_cases hd : c.defined
      · by_cases hv : c.value = v
        · subst hv
          rw [show scanTriple 2 c.value (c :: rest) = some c.value from by
            simp [scanTriple, hd]]
          simp only [reduceCtorEq, false_iff, not_not]
          exact ⟨0, ⟨true, c.value⟩, ⟨true, c.value⟩, c, by simp, by simp, by simp, by simp,
            by simp, hd, by simp, by simp⟩
        · rw [show scanTriple 2 v (c :: rest) = scanTriple 1 c.value rest from by
            simp [scanTriple, hd, hv]]
          rw [ih1 c.value, cell_eta c hd]
          rw [hasThreeAdjacent_cons (⟨true, v⟩ : Cell) (⟨true, v⟩ :: c :: rest),
            hasThreeAdjacent_cons (⟨true, v⟩ : Cell) (c :: rest)]
          apply not_congr
          constructor
          · exact fun h => Or.inr (Or.inr h)
          · rintro (⟨b, c', hb, hc', hxd, hbd, hcd, hv1, hv2⟩ |
              ⟨b, c', hb, hc', hxd, hbd, hcd, hv1, hv2⟩ | h2)
            · simp only [List.getElem?_cons_succ, List.getElem?_cons_zero,
                Option.some.injEq] at hb hc'
              subst hb
              subst hc'
              exact absurd hv2.symm hv
            · simp only [List.getElem?_cons_zero, Option.some.injEq] at hb
              subst hb
              exact absurd hv1.symm hv
            · exact h2
      · rw [show scanTriple 2 v (c :: rest) = scanTriple 0 v rest from by
          simp [scanTriple, hd]]
        rw [ih0 v]
        rw [hasThreeAdjacent_cons (⟨true, v⟩ : Cell) (⟨true, v⟩ :: c :: rest),
          hasThreeAdjacent_cons (⟨true, v⟩ : Cell) (c :: rest), hasThreeAdjacent_cons c rest]
        apply not_congr
        constructor
        · exact fun h => Or.inr (Or.inr (Or.inr h))
        · rintro (⟨b, c', hb, hc', hxd, hbd, hcd, hv1, hv2⟩ |
            ⟨b, c', hb, hc', hxd, hbd, hcd, hv1, hv2⟩ |
            ⟨b, c', hb, hc', hcd3, hbd, hcd2, hv1, hv2⟩ | h2)
          · simp only [List.getElem?_cons_succ, List.getElem?_cons_zero,
              Option.some.injEq] at hb hc'
            subst hc'
            exact absurd hcd (by simp [hd])
          · simp only [List.getElem?_cons_zero, Option.some.injEq] at hb
            subst hb
            exact absurd hbd (by simp [hd])
          · exact absurd hcd3 (by simp [hd])
          · exact h2

theorem scanTriple_some_val (cells : List Cell) :
    (∀ pv v, scanTriple 0 pv cells = some v → hasThreeAdjacentVal cells v) ∧
    (∀ w v, scanTriple 1 w cells = some v →
      hasThreeAdjacentVal (⟨true, w⟩ :: cells) v) ∧
    (∀ w v, scanTriple 2 w cells = some v →
      hasThreeAdjacentVal (⟨true, w⟩ :: ⟨true, w⟩ :: cells) v) := by
  induction cells with
  | nil =>
    exact ⟨fun pv v h => by simp [scanTriple] at h,
      fun w v h => by simp [scanTriple] at h,
      fun w v h => by simp [scanTriple] at h⟩
  | cons c rest ih =>
    obtain ⟨ih0, ih1, ih2⟩ := ih
    refine ⟨fun pv v h => ?_, fun w v h => ?_, fun w v h => ?_⟩
    · by_cases hd : c.defined
      · rw [show scanTriple 0 pv (c :: rest) = scanTriple 1 c.value rest from by
          simp [scanTriple, hd]] at h
        have := ih1 c.value v h
        rwa [cell_eta c hd] at this
      · rw [show scanTriple 0 pv (c :: rest) = scanTriple 0 pv rest from by
          simp [scanTriple, hd]] at h
        exact (hasThreeAdjacentVal_cons c rest v).mpr (Or.inr (ih0 pv v h))
    · by_cases hd : c.defined
      · by_cases hv : c.value = w
        · rw [show scanTriple 1 w (c :: rest) = scanTriple 2 c.value rest from by
            simp [scanTriple, hd, hv]] at h
          have := ih2 c.value v h
          rw [cell_eta c hd] at this
          rwa [← hv, cell_eta c hd]
        · rw [show scanTriple 1 w (c :: rest) = scanTriple 1 c.value rest from by
            simp [scanTriple, hd, hv]] at h
          have := ih1 c.value v h
          rw [cell_eta c hd] at this
          exact (hasThreeAdjacentVal_cons _ _ v).mpr (Or.inr this)
      · rw [show scanTriple 1 w (c :: rest) = scanTriple 0 w rest from by
          simp [scanTriple, hd]] at h
        exact (hasThreeAdjacentVal_cons _ _ v).mpr (Or.inr
          ((hasThreeAdjacentVal_cons _ _ v).mpr (Or.inr (ih0 w v h))))
    · by_cases hd : c.defined
      · by_cases hv : c.value = w
        · rw [show scanTriple 2 w (c :: rest) = some c.value from by
            simp [scanTriple, hd, hv]] at h
          have hcv : c.value = v := by simpa using h
          have hwv : w = v := by rw [← hv, hcv]
          exact ⟨0, ⟨true, w⟩, ⟨true, w⟩, c, by simp, by simp, by simp, by simp, by simp, hd,
            hwv, hwv, hcv⟩
        · rw [show scanTriple 2 w (c :: rest) = scanTriple 1 c.value rest from by
            simp [scanTriple, hd, hv]] at h
          have := ih1 c.value v h
          rw [cell_eta c hd] at this
          exact (hasThreeAdjacentVal_cons _ _ v).mpr (Or.inr
            ((hasThreeAdjacentVal_cons _ _ v).mpr (Or.inr this)))
      · rw [show scanTriple 2 w (c :: rest) = scanTriple 0 w rest from by
          simp [scanTriple, hd]] at h
        exact (hasThreeAdjacentVal_cons _ _ v).mpr (Or.inr
          ((hasThreeAdjacentVal_cons _ _ v).mpr (Or.inr
            ((hasThreeAdjacentVal_cons _ _ v).mpr (Or.inr (ih0 w v h))))))

theorem checkRangeAux_error (sz : Nat) (rest : List Cell) :
    ∀ full c0 c1 pcc pv,
      (checkRangeAux sz rest full c0 c1 pcc pv).2 =
        match scanTriple pcc pv rest with
        | some v => some (.threeAdjacent v)
        | none =>
          if sz / 2 < c0 + countVal false rest then some (.tooMany false)
          else if sz / 2 < c1 + countVal true rest then some (.tooMany true)
          else none := by
  induction rest with
  | nil =>
    intro full c0 c1 pcc pv
    simp only [checkRangeAux, scanTriple, countVal, List.filter_nil, List.length_nil,
      Nat.add_zero]
    split_ifs <;> rfl
  | cons c rest ih =>
    intro full c0 c1 pcc pv
    have e0 : (hd : c.defined = true) →
        (if c.value then c0 else c0 + 1) + countVal false rest =
          c0 + countVal false (c :: rest) := by
      intro hd
      rw [countVal_cons]
      cases hcv : c.value <;> simp [hd, hcv] <;> omega
    have e1 : (hd : c.defined = true) →
        (if c.value then c1 + 1 else c1) + countVal true rest =
          c1 + countVal true (c :: rest) := by
      intro hd
      rw [countVal_cons]
      cases hcv : c.value <;> simp [hd, hcv] <;> omega
    by_cases hd : c.defined
    · by_cases hp : pcc = 0
      · rw [show checkRangeAux sz (c :: rest) full c0 c1 pcc pv =
            checkRangeAux sz rest full (if c.value then c0 else c0 + 1)
              (if c.value then c1 + 1 else c1) 1 c.value from by
          simp [checkRangeAux, hd, hp]]
        rw [ih, show scanTriple pcc pv (c :: rest) = scanTriple 1 c.value rest from by
          simp [scanTriple, hd, hp]]
        cases hscan : scanTriple 1 c.value rest with
        | some v => simp [hscan]
        | none => simp only [hscan]; rw [e0 hd, e1 hd]
      · by_cases hv : c.value = pv
        · by_cases hbig : 2 < pcc + 1
          · rw [show checkRangeAux sz (c :: rest) full c0 c1 pcc pv =
                (full, some (.threeAdjacent c.value)) from by
              simp [checkRangeAux, hd, hp, hv, hbig]]
            rw [show scanTriple pcc pv (c :: rest) = some c.value from by
              simp [scanTriple, hd, hp, hv, hbig]]
          · rw [show checkRangeAux sz (c :: rest) full c0 c1 pcc pv =
                checkRangeAux sz rest full (if c.value then c0 else c0 + 1)
                  (if c.value then c1 + 1 else c1) (pcc + 1) c.value from by
              simp [checkRangeAux, hd, hp, hv, hbig]]
            rw [ih, show scanTriple pcc pv (c :: rest) = scanTriple (pcc + 1) c.value rest from by
              simp [scanTriple, hd, hp, hv, hbig]]
            cases hscan : scanTriple (pcc + 1) c.value rest with
            | some v => simp [hscan]
            | none => simp only [hscan]; rw [e0 hd, e1 hd]
        · rw [show checkRangeAux sz (c :: rest) full c0 c1 pcc pv =
              checkRangeAux sz rest full (if c.value then c0 else c0 + 1)
                (if c.value then c1 + 1 else c1) 1 c.value from by
            simp [checkRangeAux, hd, hp, hv]]
          rw [ih, show scanTriple pcc pv (c :: rest) = scanTriple 1 c.value rest from by
            simp [scanTriple, hd, hp, hv]]
          cases hscan : scanTriple 1 c.value rest with
          | some v => simp [hscan]
          | none => simp only [hscan]; rw [e0 hd, e1 hd]
    · rw [show checkRangeAux sz (c :: rest) full c0 c1 pcc pv =
          checkRangeAux sz rest false c0 c1 0 pv from by
        simp [checkRangeAux, hd]]
      rw [ih, show scanTriple pcc pv (c :: rest) = scanTriple 0 pv rest from by
        simp [scanTriple, hd]]
      have f0 : countVal false (c :: rest) = countVal false rest := by
        rw [countVal_cons]; simp [hd]
      have f1 : countVal true (c :: rest) = countVal true rest := by
        rw [countVal_cons]; simp [hd]
      rw [f0, f1]

theorem checkRangeAux_full (sz : Nat) (rest : List Cell) :
    ∀ full c0 c1 pcc pv, scanTriple pcc pv rest = none →
      (checkRangeAux sz rest full c0 c1 pcc pv).1 = (full && rest.all (·.defined)) := by
  induction rest with
  | nil =>
    intro full c0 c1 pcc pv _
    simp only [checkRangeAux, List.all_nil, Bool.and_true]
    split_ifs <;> rfl
  | cons c rest ih =>
    intro full c0 c1 pcc pv hscan
    by_cases hd : c.defined
    · by_cases hp : pcc = 0
      · rw [show checkRangeAux sz (c :: rest) full c0 c1 pcc pv =
            checkRangeAux sz rest full (if c.value then c0 else c0 + 1)
              (if c.value then c1 + 1 else c1) 1 c.value from by
          simp [checkRangeAux, hd, hp]]
        have hs1 : scanTriple 1 c.value rest = none := by
          rw [show scanTriple 1 c.value rest = scanTriple pcc pv (c :: rest) from by
            simp [scanTriple, hd, hp]]
          exact hscan
        rw [ih _ _ _ _ _ hs1]
        simp [hd]
      · by_cases hv : c.value = pv
        · by_cases hbig : 2 < pcc + 1
          · exfalso
            rw [show scanTriple pcc pv (c :: rest) = some c.value from by
              simp [scanTriple, hd, hp, hv, hbig]] at hscan
            exact Option.noConfusion hscan
          · rw [show checkRangeAux sz (c :: rest) full c0 c1 pcc pv =
                checkRangeAux sz rest full (if c.value then c0 else c0 + 1)
                  (if c.value then c1 + 1 else c1) (pcc + 1) c.value from by
              simp [checkRangeAux, hd, hp, hv, hbig]]
            have hs1 : scanTriple (pcc + 1) c.value rest = none := by
              rw [show scanTriple (pcc + 1) c.value rest = scanTriple pcc pv (c :: rest) from by
                simp [scanTriple, hd, hp, hv, hbig]]
              exact hscan
            rw [ih _ _ _ _ _ hs1]
            simp [hd]
        · rw [show checkRangeAux sz (c :: rest) full c0 c1 pcc pv =
              checkRangeAux sz rest full (if c.value then c0 else c0 + 1)
                (if c.value then c1 + 1 else c1) 1 c.value from by
            simp [checkRangeAux, hd, hp, hv]]
          have hs1 : scanTriple 1 c.value rest = none := by
            rw [show scanTriple 1 c.value rest = scanTriple pcc pv (c :: rest) from by
              simp [scanTriple, hd, hp, hv]]
            exact hscan
          rw [ih _ _ _ _ _ hs1]
          simp [hd]
    · rw [show checkRangeAux sz (c :: rest) full c0 c1 pcc pv =
          checkRangeAux sz rest false c0 c1 0 pv from by
        simp [checkRangeAux, hd]]
      have hs1 : scanTriple 0 pv rest = none := by
        rw [show scanTriple 0 pv rest = scanTriple pcc pv (c :: rest) from by
          simp [scanTriple, hd]]
        exact hscan
      rw [ih _ _ _ _ _ hs1]
      simp [hd]

theorem checkRange_error_eq (cells : List Cell) :
    (checkRange cells).2 =
      match scanTriple 0 false cells with
      | some v => some (.threeAdjacent v)
      | none =>
        if cells.length / 2 < countVal false cells then some (.tooMany false)
        else if cells.length / 2 < countVal true cells then some (.tooMany true)
        else none := by
  unfold checkRange
  rw [checkRangeAux_error]
  simp

/-- C5: checkRange signals a three-adjacent error carrying the repeated
value exactly when some run of three equal adjacent defined values
occurs; with no such run it signals too-many-zeroes when the defined
zeros exceed half the length, else too-many-ones when the defined ones
do; and when no error is signalled, the returned boolean is true exactly
when every cell is defined. -/
theorem checkRange_spec (cells : List Cell) :
    ((∃ v, (checkRange cells).2 = some (.threeAdjacent v)) ↔ hasThreeAdjacent cells) ∧
    (∀ v, (checkRange cells).2 = some (.threeAdjacent v) → hasThreeAdjacentVal cells v) ∧
    ((checkRange cells).2 = some (.tooMany false) ↔
      (¬ hasThreeAdjacent cells ∧ cells.length / 2 < countVal false cells)) ∧
    ((checkRange cells).2 = some (.tooMany true) ↔
      (¬ hasThreeAdjacent cells ∧ countVal false cells ≤ cells.length / 2 ∧
        cells.length / 2 < countVal true cells)) ∧
    ((checkRange cells).2 = none →
      ((checkRange cells).1 = true ↔ ∀ x ∈ cells, x.defined)) := by
  have herr := checkRange_error_eq cells
  obtain ⟨h0, -, -⟩ := scanTriple_none_iff cells
  obtain ⟨hval, -, -⟩ := scanTriple_some_val cells
  cases hscan : scanTriple 0 false cells with
  | some v =>
    rw [hscan] at herr
    have hadj : hasThreeAdjacent cells := by
      by_contra hn
      rw [← h0 false] at hn
      rw [hscan] at hn
      exact Option.noConfusion hn
    refine ⟨⟨fun _ => hadj, fun _ => ⟨v, herr⟩⟩, ?_, ?_, ?_, ?_⟩
    · intro v' hv'
      rw [herr] at hv'
      have hvv : v = v' := by simpa using hv'
      subst hvv
      exact hval false v hscan
    · rw [herr]
      simp [hadj]
    · rw [herr]
      simp [hadj]
    · intro h
      rw [herr] at h
      exact absurd h (by simp)
  | none =>
    rw [hscan] at herr
    have hnadj : ¬ hasThreeAdjacent cells := (h0 false).mp hscan
    have hfull := checkRangeAux_full cells.length cells true 0 0 0 false hscan
    refine ⟨?_, ?_, ?_, ?_, ?_⟩
    · rw [show (∃ v, (checkRange cells).2 = some (.threeAdjacent v)) ↔ False from by
        simp only [herr]; split_ifs <;> simp]
      simp [hnadj]
    · intro v hv
      rw [herr] at hv
      split_ifs at hv <;> simp_all
    · rw [herr]
      split_ifs with hc0 hc1 <;> simp_all
    · rw [herr]
      split_ifs with hc0 hc1 <;> simp_all
    · intro _
      show (checkRangeAux cells.length cells true 0 0 0 false).1 = true ↔ _
      rw [hfull]
      simp [List.all_eq_true]

/-! ## The Validate characterization (C1) -/

theorem checkRange_ok_facts (cells : List Cell) (h : (checkRange cells).2 = none) :
    ¬ hasThreeAdjacent cells ∧ countVal false cells ≤ cells.length / 2 ∧
      countVal true cells ≤ cells.length / 2 ∧
      ((checkRange cells).1 = true ↔ ∀ x ∈ cells, x.defined) := by
  have herr := checkRange_error_eq cells
  rw [h] at herr
  obtain ⟨h0, -, -⟩ := scanTriple_none_iff cells
  cases hscan : scanTriple 0 false cells with
  | some v =>
    rw [hscan] at herr
    exact absurd herr.symm (by simp)
  | none =>
    rw [hscan] at herr
    have hnadj : ¬ hasThreeAdjacent cells := (h0 false).mp hscan
    have hfull := checkRangeAux_full cells.length cells true 0 0 0 false hscan
    refine ⟨hnadj, ?_, ?_, ?_⟩
    · by_contra hc
      rw [if_pos (by omega)] at herr
      exact Option.noConfusion herr.symm
    · by_contra hc
      by_cases hc0 : cells.length / 2 < countVal false cells
      · rw [if_pos hc0] at herr
        exact Option.noConfusion herr.symm
      · rw [if_neg hc0, if_pos (by omega)] at herr
        exact Option.noConfusion herr.symm
    · show (checkRangeAux cells.length cells true 0 0 0 false).1 = true ↔ _
      rw [hfull]
      simp [List.all_eq_true]

theorem GetLine_length (b : Takuzu) (i : Nat) (hwf : b.WF) (hi : i < b.size) :
    (b.GetLine i).length = b.size := by
  obtain ⟨h1, h2⟩ := hwf
  unfold Takuzu.GetLine
  have hlt : i < b.board.length := by omega
  rw [List.getD_eq_getElem?_getD, List.getElem?_eq_getElem hlt]
  exact h2 _ (List.getElem_mem hlt)

theorem GetColumn_length (b : Takuzu) (i : Nat) (hwf : b.WF) :
    (b.GetColumn i).length = b.size := by
  obtain ⟨h1, h2⟩ := hwf
  unfold Takuzu.GetColumn
  simpa using h1

theorem validateLoop_step (b : Takuzu) (k i : Nat) (lv cv : List Nat) (fin : Bool) :
    b.ValidateLoop (k + 1) i lv cv fin =
      match (checkRange (b.GetLine i)).2 with
      | some e => (false, some (.range .line i e))
      | none =>
        if (checkRange (b.GetLine i)).1 && lv.contains (computeVal (b.GetLine i)) then
          (false, some (.duplicate .line i))
        else
          match (checkRange (b.GetColumn i)).2 with
          | some e => (false, some (.range .column i e))
          | none =>
            if (checkRange (b.GetColumn i)).1 && cv.contains (computeVal (b.GetColumn i)) then
              (false, some (.duplicate .column i))
            else
              b.ValidateLoop k (i + 1)
                (if (checkRange (b.GetLine i)).1 then computeVal (b.GetLine i) :: lv else lv)
                (if (checkRange (b.GetColumn i)).1 then computeVal (b.GetColumn i) :: cv
                  else cv)
                (fin && (checkRange (b.GetLine i)).1 && (checkRange (b.GetColumn i)).1) := by
  rfl

theorem validateLoop_range_ok (b : Takuzu) :
    ∀ k i lv cv fin f, b.ValidateLoop k i lv cv fin = (f, none) →
      ∀ j, i ≤ j → j < i + k →
        (checkRange (b.GetLine j)).2 = none ∧ (checkRange (b.GetColumn j)).2 = none := by
  intro k
  induction k with
  | zero => intro i lv cv fin f h j h1 h2; omega
  | succ k ih =>
    intro i lv cv fin f h j h1 h2
    rw [validateLoop_step] at h
    cases hL : (checkRange (b.GetLine i)).2 with
    | some e => rw [hL] at h; simp at h
    | none =>
      rw [hL] at h
      simp only at h
      split at h
      · simp at h
      · cases hC : (checkRange (b.GetColumn i)).2 with
        | some e => rw [hC] at h; simp at h
        | none =>
          rw [hC] at h
          simp only at h
          split at h
          · simp at h
          · by_cases hji : j = i
            · subst hji; exact ⟨hL, hC⟩
            · exact ih _ _ _ _ _ h j (by omega) (by omega)

theorem validateLoop_dup (b : Takuzu) :
    ∀ k i lv cv fin f, b.ValidateLoop k i lv cv fin = (f, none) →
      (∀ j, i ≤ j → j < i + k → (checkRange (b.GetLine j)).1 = true →
          lv.contains (computeVal (b.GetLine j)) = false) ∧
      (∀ j, i ≤ j → j < i + k → (checkRange (b.GetColumn j)).1 = true →
          cv.contains (computeVal (b.GetColumn j)) = false) ∧
      (∀ j1 j2, i ≤ j1 → j1 < j2 → j2 < i + k →
        (checkRange (b.GetLine j1)).1 = true → (checkRange (b.GetLine j2)).1 = true →
        computeVal (b.GetLine j1) ≠ computeVal (b.GetLine j2)) ∧
      (∀ j1 j2, i ≤ j1 → j1 < j2 → j2 < i + k →
        (checkRange (b.GetColumn j1)).1 = true → (checkRange (b.GetColumn j2)).1 = true →
        computeVal (b.GetColumn j1) ≠ computeVal (b.GetColumn j2)) := by
  intro k
  induction k with
  | zero =>
    intro i lv cv fin f h
    exact ⟨fun j h1 h2 => by omega, fun j h1 h2 => by omega,
      fun j1 j2 h1 h2 h3 => by omega, fun j1 j2 h1 h2 h3 => by omega⟩
  | succ k ih =>
    intro i lv cv fin f h
    rw [validateLoop_step] at h
    cases hL : (checkRange (b.GetLine i)).2 with
    | some e => rw [hL] at h; simp at h
    | none =>
      rw [hL] at h
      simp only at h
      split at h
      case isTrue => simp at h
      case isFalse hdupL =>
      cases hC : (checkRange (b.GetColumn i)).2 with
      | some e => rw [hC] at h; simp at h
      | none =>
        rw [hC] at h
        simp only at h
        split at h
        case isTrue => simp at h
        case isFalse hdupC =>
        obtain ⟨ihL, ihC, ihLL, ihCC⟩ := ih _ _ _ _ _ h
        have hlvsub : ∀ x : Nat,
            (if (checkRange (b.GetLine i)).1 then computeVal (b.GetLine i) :: lv
              else lv).contains x = false → lv.contains x = false := by
          intro x hx
          split at hx
          · simp only [List.contains_cons, Bool.or_eq_false_iff] at hx
            exact hx.2
          · exact hx
        have hcvsub : ∀ x : Nat,
            (if (checkRange (b.GetColumn i)).1 then computeVal (b.GetColumn i) :: cv
              else cv).contains x = false → cv.contains x = false := by
          intro x hx
          split at hx
          · simp only [List.contains_cons, Bool.or_eq_false_iff] at hx
            exact hx.2
          · exact hx
        refine ⟨?_, ?_, ?_, ?_⟩
        · intro j h1 h2 hfull
          by_cases hji : j = i
          · subst hji
            rw [hfull, Bool.true_and] at hdupL
            exact Bool.not_eq_true _ ▸ (by simpa using hdupL)
          · exact hlvsub _ (ihL j (by omega) (by omega) hfull)
        · intro j h1 h2 hfull
          by_cases hji : j = i
          · subst hji
            rw [hfull, Bool.true_and] at hdupC
            exact Bool.not_eq_true _ ▸ (by simpa using hdupC)
          · exact hcvsub _ (ihC j (by omega) (by omega) hfull)
        · intro j1 j2 h1 h2 h3 hf1 hf2
          by_cases hji : j1 = i
          · subst hji
            have := ihL j2 (by omega) (by omega) hf2
            rw [if_pos hf1] at this
            simp only [List.contains_cons, Bool.or_eq_false_iff] at this
            intro heq
            rw [← heq] at this
            simpa using this.1
          · exact ihLL j1 j2 (by omega) h2 (by omega) hf1 hf2
        · intro j1 j2 h1 h2 h3 hf1 hf2
          by_cases hji : j1 = i
          · subst hji
            have h4 := ihC j2 (by omega) (by omega) hf2
            rw [if_pos hf1] at h4
            simp only [List.contains_cons, Bool.or_eq_false_iff] at h4
            intro heq
            rw [← heq] at h4
            simpa using h4.1
          · exact ihCC j1 j2 (by omega) h2 (by omega) hf1 hf2

theorem validateLoop_finished (b : Takuzu) :
    ∀ k i lv cv fin e, b.ValidateLoop k i lv cv fin = (true, e) →
      e = none ∧ fin = true ∧
      ∀ j, i ≤ j → j < i + k →
        (checkRange (b.GetLine j)).1 = true ∧ (checkRange (b.GetColumn j)).1 = true := by
  intro k
  induction k with
  | zero =>
    intro i lv cv fin e h
    simp only [Takuzu.ValidateLoop, Prod.mk.injEq] at h
    exact ⟨h.2.symm, h.1, fun j h1 h2 => by omega⟩
  | succ k ih =>
    intro i lv cv fin e h
    rw [validateLoop_step] at h
    cases hL : (checkRange (b.GetLine i)).2 with
    | some er => rw [hL] at h; simp at h
    | none =>
      rw [hL] at h
      simp only at h
      split at h
      case isTrue => simp at h
      case isFalse hdupL =>
      cases hC : (checkRange (b.GetColumn i)).2 with
      | some er => rw [hC] at h; simp at h
      | none =>
        rw [hC] at h
        simp only at h
        split at h
        case isTrue => simp at h
        case isFalse hdupC =>
        obtain ⟨hnone, hfin, hwin⟩ := ih _ _ _ _ _ h
        have hfl : fin = true ∧ (checkRange (b.GetLine i)).1 = true ∧
            (checkRange (b.GetColumn i)).1 = true := by
          rcases Bool.and_eq_true_iff.mp hfin with ⟨hx, h3⟩
          rcases Bool.and_eq_true_iff.mp hx with ⟨h1, h2⟩
          exact ⟨h1, h2, h3⟩
        refine ⟨hnone, hfl.1, ?_⟩
        intro j h1 h2
        by_cases hji : j = i
        · subst hji; exact ⟨hfl.2.1, hfl.2.2⟩
        · exact hwin j (by omega) (by omega)

theorem getD_mem_of_lt {α : Type} (L : List α) (c : Nat) (d : α) (h : c < L.length) :
    L.getD c d ∈ L := by
  rw [List.getD_eq_getElem?_getD, List.getElem?_eq_getElem h]
  exact List.getElem_mem h

theorem getCell_mem_GetLine (b : Takuzu) (l c : Nat) (hwf : b.WF) (hl : l < b.size)
    (hc : c < b.size) : b.getCell l c ∈ b.GetLine l := by
  have hlen : (b.GetLine l).length = b.size := GetLine_length b l hwf hl
  exact getD_mem_of_lt _ c _ (by omega)

theorem validate_true_all_defined (b : Takuzu) (hwf : b.WF) (e : Option ValidateErr)
    (h : b.Validate = (true, e)) :
    ∀ l c, l < b.size → c < b.size → (b.getCell l c).defined := by
  obtain ⟨hnone, -, hwin⟩ := validateLoop_finished b b.size 0 [] [] true e h
  subst hnone
  intro l c hl hc
  obtain ⟨hfl, -⟩ := hwin l (by omega) (by omega)
  obtain ⟨hLok, -⟩ := validateLoop_range_ok b b.size 0 [] [] true true h l (by omega) (by omega)
  obtain ⟨-, -, -, hiff⟩ := checkRange_ok_facts _ hLok
  exact hiff.mp hfl _ (getCell_mem_GetLine b l c hwf hl hc)

/-- C1: if Validate reports no error, then no row or column has three
equal adjacent defined values, no row or column has more than size/2
defined zeros or more than size/2 defined ones, and no two fully defined
rows are identical, nor two fully defined columns. -/
theorem validate_sound (b : Takuzu) (hwf : b.WF) (hok : (b.Validate).2 = none) :
    (∀ i, i < b.size →
      ¬ hasThreeAdjacent (b.GetLine i) ∧ ¬ hasThreeAdjacent (b.GetColumn i) ∧
      countVal false (b.GetLine i) ≤ b.size / 2 ∧
      countVal true (b.GetLine i) ≤ b.size / 2 ∧
      countVal false (b.GetColumn i) ≤ b.size / 2 ∧
      countVal true (b.GetColumn i) ≤ b.size / 2) ∧
    (∀ i j, i < b.size → j < b.size → i ≠ j →
      (∀ x ∈ b.GetLine i, x.defined) → (∀ x ∈ b.GetLine j, x.defined) →
      b.GetLine i ≠ b.GetLine j) ∧
    (∀ i j, i < b.size → j < b.size → i ≠ j →
      (∀ x ∈ b.GetColumn i, x.defined) → (∀ x ∈ b.GetColumn j, x.defined) →
      b.GetColumn i ≠ b.GetColumn j) := by
  have h : b.ValidateLoop b.size 0 [] [] true = ((b.Validate).1, (b.Validate).2) := rfl
  rw [hok] at h
  have hrange := validateLoop_range_ok b b.size 0 [] [] true _ h
  obtain ⟨-, -, hdupL, hdupC⟩ := validateLoop_dup b b.size 0 [] [] true _ h
  have hfullL : ∀ i, i < b.size → (∀ x ∈ b.GetLine i, x.defined) →
      (checkRange (b.GetLine i)).1 = true := by
    intro i hi hall
    obtain ⟨hLok, -⟩ := hrange i (by omega) (by omega)
    exact (checkRange_ok_facts _ hLok).2.2.2.mpr hall
  have hfullC : ∀ i, i < b.size → (∀ x ∈ b.GetColumn i, x.defined) →
      (checkRange (b.GetColumn i)).1 = true := by
    intro i hi hall
    obtain ⟨-, hCok⟩ := hrange i (by omega) (by omega)
    exact (checkRange_ok_facts _ hCok).2.2.2.mpr hall
  refine ⟨?_, ?_, ?_⟩
  · intro i hi
    obtain ⟨hLok, hCok⟩ := hrange i (by omega) (by omega)
    obtain ⟨hL1, hL2, hL3, -⟩ := checkRange_ok_facts _ hLok
    obtain ⟨hC1, hC2, hC3, -⟩ := checkRange_ok_facts _ hCok
    rw [GetLine_length b i hwf hi] at hL2 hL3
    rw [GetColumn_length b i hwf] at hC2 hC3
    exact ⟨hL1, hC1, hL2, hL3, hC2, hC3⟩
  · intro i j hi hj hij halli hallj heq
    rcases Nat.lt_or_ge i j with hlt | hge
    · exact hdupL i j (by omega) hlt (by omega) (hfullL i hi halli) (hfullL j hj hallj)
        (by rw [heq])
    · have hlt : j < i := by omega
      exact hdupL j i (by omega) hlt (by omega) (hfullL j hj hallj) (hfullL i hi halli)
        (by rw [heq])
  · intro i j hi hj hij halli hallj heq
    rcases Nat.lt_or_ge i j with hlt | hge
    · exact hdupC i j (by omega) hlt (by omega) (hfullC i hi halli) (hfullC j hj hallj)
        (by rw [heq])
    · have hlt : j < i := by omega
      exact hdupC j i (by omega) hlt (by omega) (hfullC j hj hallj) (hfullC i hi halli)
        (by rw [heq])

/-- Witness for C1 at the concrete valid 4x4 board. -/
theorem validate_sound_witness :
    w4.WF ∧ (w4.Validate).2 = none ∧ w4.GetLine 0 ≠ w4.GetLine 1 :=
  ⟨by decide, by decide,
    (validate_sound w4 (by decide) (by decide)).2.1 0 1 (by decide) (by decide)
      (by decide) (by decide) (by decide)⟩

/-! ## The codec round trip (C2) -/

theorem filter_le_range_length (n : Nat) :
    ∀ m, n < m → ((List.range m).filter fun k => decide (k ≤ n)).length = n + 1 := by
  intro m
  induction m with
  | zero => intro h; omega
  | succ m ih =>
    intro h
    rw [List.range_succ, List.filter_append]
    by_cases hm : n < m
    · rw [List.length_append, ih hm]
      simp [Nat.not_le.mpr hm]
    · have hnm : n = m := by omega
      subst hnm
      have hall : (List.range n).filter (fun k => decide (k ≤ n)) = List.range n :=
        List.filter_eq_self.mpr (by intro a ha; simp [List.mem_range] at ha; simp; omega)
      rw [hall]
      simp

theorem intSqrt_mul_self (n : Nat) : intSqrt (n * n) = n := by
  unfold intSqrt
  have hcong : (List.range (n * n + 1)).filter (fun k => decide (k * k ≤ n * n)) =
      (List.range (n * n + 1)).filter (fun k => decide (k ≤ n)) :=
    List.filter_congr (by intro a ha; simp [Nat.mul_self_le_mul_self_iff])
  rw [hcong, filter_le_range_length n (n * n + 1) (by nlinarith)]
  omega

theorem range_getD_eq {α : Type} (L : List α) (d : α) :
    ∀ n, L.length = n → (List.range n).map (fun i => L.getD i d) = L := by
  induction L with
  | nil => intro n h; subst h; rfl
  | cons a L ih =>
    intro n h
    subst h
    rw [show (a :: L).length = L.length + 1 from rfl, List.range_succ_eq_map]
    simp only [List.map_cons, List.getD_cons_zero, List.map_map]
    congr 1
    rw [show ((fun i => (a :: L).getD i d) ∘ Nat.succ) = fun i => L.getD i d from by
      funext i; simp]
    exact ih L.length rfl

theorem map_range_getD {α β : Type} (L : List α) (d : α) (g : α → β) (n : Nat)
    (h : L.length = n) :
    (List.range n).map (fun i => g (L.getD i d)) = L.map g := by
  conv_rhs => rw [← range_getD_eq L d n h]
  rw [List.map_map]
  rfl

theorem ToString_eq_flat (b : Takuzu) (hwf : b.WF) :
    b.ToString = b.board.flatMap fun row => row.map cellChar := by
  unfold Takuzu.ToString
  have h1 : ∀ l ∈ List.range b.size,
      ((List.range b.size).map fun c => cellChar (b.getCell l c)) =
        (b.board.getD l []).map cellChar := by
    intro l hl
    simp only [List.mem_range] at hl
    exact map_range_getD _ _ _ _ (GetLine_length b l hwf hl)
  rw [List.flatMap_def, List.map_congr_left h1, ← List.flatMap_def]
  have h2 : (List.range b.size).flatMap (fun l => (b.board.getD l []).map cellChar) =
      ((List.range b.size).map (fun l => b.board.getD l [])).flatMap
        (fun row => row.map cellChar) := by
    rw [List.flatMap_map]
  rw [h2, range_getD_eq b.board [] b.size hwf.1]

theorem flat_length (n : Nat) :
    ∀ rows : List (List Cell), (∀ r ∈ rows, r.length = n) →
      (rows.flatMap fun row => row.map cellChar).length = rows.length * n := by
  intro rows
  induction rows with
  | nil => intro _; simp
  | cons r rows ih =>
    intro h
    rw [List.flatMap_cons, List.length_append, List.length_map,
      h r (List.mem_cons_self r rows), ih (fun x hx => h x (List.mem_cons_of_mem r hx))]
    simp [Nat.succ_mul]
    omega

theorem parseRow_round (row : List Cell) :
    parseRowChars (row.map cellChar) = some (row.map normCell) := by
  induction row with
  | nil => rfl
  | cons c row ih =>
    unfold parseRowChars at ih ⊢
    simp only [List.map_cons, List.mapM_cons, ih]
    have hc : parseTakChar (cellChar c) = some (normCell c) := by
      unfold parseTakChar cellChar normCell
      rcases c with ⟨d, v⟩
      cases d <;> cases v <;> simp
    rw [hc]
    rfl

theorem parseRows_round (n : Nat) :
    ∀ rows : List (List Cell), (∀ r ∈ rows, r.length = n) →
      parseRowsChars n rows.length (rows.flatMap fun row => row.map cellChar) =
        some (rows.map fun row => row.map normCell) := by
  intro rows
  induction rows with
  | nil => intro _; rfl
  | cons r rows ih =>
    intro h
    have hrlen : (r.map cellChar).length = n := by
      rw [List.length_map]; exact h r (List.mem_cons_self r rows)
    rw [List.flatMap_cons, show (r :: rows).length = rows.length + 1 from rfl]
    unfold parseRowsChars
    rw [List.take_left' hrlen, List.drop_left' hrlen, parseRow_round,
      ih (fun x hx => h x (List.mem_cons_of_mem r hx))]
    rfl

/-- C2: decoding the encoded string of a well-formed board of even size
at least 4 succeeds and reproduces the board: same size, same defined
flag at every cell, and the same value wherever the cell is defined. -/
theorem codec_round_trip (b : Takuzu) (hwf : b.WF) (heven : b.size % 2 = 0)
    (hge : 4 ≤ b.size) :
    ∃ b', NewFromString b.ToString = .ok b' ∧ b'.size = b.size ∧
      ∀ l c, l < b.size → c < b.size →
        (b'.getCell l c).defined = (b.getCell l c).defined ∧
        ((b.getCell l c).defined = true →
          (b'.getCell l c).value = (b.getCell l c).value) := by
  refine ⟨⟨b.size, b.board.map fun row => row.map normCell⟩, ?_, rfl, ?_⟩
  · rw [ToString_eq_flat b hwf]
    unfold NewFromString
    have hlen : (b.board.flatMap fun row => row.map cellChar).length = b.size * b.size := by
      rw [flat_length b.size b.board hwf.2, hwf.1]
    simp only [hlen]
    rw [if_neg (by nlinarith), intSqrt_mul_self, if_neg (by simp)]
    have hrows : parseRowsChars b.size b.board.length
        (b.board.flatMap fun row => row.map cellChar) =
          some (b.board.map fun row => row.map normCell) :=
      parseRows_round b.size b.board hwf.2
    rw [hwf.1] at hrows
    rw [hrows]
  · intro l c hl hc
    have hl' : l < b.board.length := by rw [hwf.1]; omega
    have hc' : c < (b.board.getD l []).length := by
      rw [show (b.board.getD l []).length = b.size from GetLine_length b l hwf hl]
      omega
    have h1 : (Takuzu.mk b.size (b.board.map fun row => row.map normCell)).getCell l c =
        normCell (b.getCell l c) := by
      unfold Takuzu.getCell
      simp only
      rw [show ([] : List Cell) = List.map normCell [] from rfl, List.getD_map,
        show (⟨false, false⟩ : Cell) = normCell ⟨false, false⟩ from rfl, List.getD_map]
      rfl
    rw [h1]
    unfold normCell
    by_cases hd : (b.getCell l c).defined <;> simp [hd]

/-- Witness for C2 at the concrete valid 4x4 board. -/
theorem codec_round_trip_witness :
    w4.WF ∧ w4.size % 2 = 0 ∧ 4 ≤ w4.size ∧
      ∃ b', NewFromString w4.ToString = .ok b' ∧ b'.size = w4.size ∧
        ∀ l c, l < w4.size → c < w4.size →
          (b'.getCell l c).defined = (w4.getCell l c).defined ∧
          ((w4.getCell l c).defined = true →
            (b'.getCell l c).value = (w4.getCell l c).value) :=
  ⟨by decide, by decide, by decide, codec_round_trip w4 (by decide) (by decide) (by decide)⟩

/-! ## The trivial deducer fixpoint (C6) -/

theorem guessPos_mem (b : Takuzu) (l c : Nat) :
    b.guessPos l c = -1 ∨ b.guessPos l c = 0 ∨ b.guessPos l c = 1 := by
  unfold Takuzu.guessPos
  dsimp only
  split_ifs <;> simp

theorem mem_allPositions (n : Nat) (p : Nat × Nat) :
    p ∈ allPositions n ↔ p.1 < n ∧ p.2 < n := by
  rcases p with ⟨l, c⟩
  simp [allPositions, List.mem_flatMap, List.mem_range, List.mem_map]

theorem passStep_snd_true (st : Takuzu × Bool) (p : Nat × Nat) (h : st.2 = true) :
    (passStep st p).2 = true := by
  unfold passStep
  dsimp only
  split_ifs <;> simp_all

theorem passStep_false (st : Takuzu × Bool) (p : Nat × Nat)
    (h : (passStep st p).2 = false) : passStep st p = st := by
  unfold passStep at h ⊢
  dsimp only at h ⊢
  split_ifs at h ⊢ <;> simp_all

theorem foldl_passStep_snd_true (ps : List (Nat × Nat)) :
    ∀ st : Takuzu × Bool, st.2 = true → (ps.foldl passStep st).2 = true := by
  induction ps with
  | nil => intro st h; exact h
  | cons p ps ih => intro st h; exact ih _ (passStep_snd_true st p h)

theorem foldl_passStep_false (ps : List (Nat × Nat)) :
    ∀ st : Takuzu × Bool, (ps.foldl passStep st).2 = false → ps.foldl passStep st = st := by
  induction ps with
  | nil => intro st _; rfl
  | cons p ps ih =>
    intro st h
    rw [List.foldl_cons] at h ⊢
    cases hsnd : (passStep st p).2 with
    | true => rw [foldl_passStep_snd_true ps _ hsnd] at h; exact absurd h (by simp)
    | false => rw [passStep_false st p hsnd] at h ⊢; exact ih st h

theorem pass_false (b b' : Takuzu) (h : b.trySolveTrivialPass = (b', false)) : b' = b := by
  unfold Takuzu.trySolveTrivialPass at h
  have h2 := foldl_passStep_false (allPositions b.size) (b, false) (by rw [h])
  rw [h] at h2
  exact (Prod.mk.injEq _ _ _ _).mp h2 |>.1

theorem filter_length_le {α : Type} (ps : List α) (p q : α → Bool)
    (hle : ∀ x ∈ ps, q x = true → p x = true) :
    (ps.filter q).length ≤ (ps.filter p).length := by
  induction ps with
  | nil => simp
  | cons x ps ih =>
    have ihx := ih fun y hy => hle y (List.mem_cons_of_mem x hy)
    rw [List.filter_cons, List.filter_cons]
    by_cases hq : q x = true
    · rw [if_pos hq, if_pos (hle x (List.mem_cons_self x ps) hq)]
      simpa using ihx
    · rw [if_neg hq]
      split <;> simp <;> omega

theorem filter_length_lt {α : Type} (ps : List α) (p q : α → Bool)
    (hle : ∀ x ∈ ps, q x = true → p x = true) (a : α) (ha : a ∈ ps)
    (hpa : p a = true) (hqa : q a = false) :
    (ps.filter q).length < (ps.filter p).length := by
  induction ps with
  | nil => simp at ha
  | cons x ps ih =>
    have hle' : ∀ y ∈ ps, q y = true → p y = true :=
      fun y hy => hle y (List.mem_cons_of_mem x hy)
    rw [List.filter_cons, List.filter_cons]
    rcases List.mem_cons.mp ha with hax | hax
    · subst hax
      rw [if_pos hpa, if_neg (by simp [hqa])]
      have := filter_length_le ps p q hle'
      simp only [List.length_cons]
      omega
    · have ihx := ih hle' hax
      by_cases hq : q x = true
      · rw [if_pos hq, if_pos (hle x (List.mem_cons_self x ps) hq)]
        simpa using ihx
      · rw [if_neg hq]
        split <;> simp <;> omega

theorem set_getElem_self {α : Type} (l : List α) (n : Nat) (h : n < l.length) :
    l.set n l[n] = l := by
  apply List.ext_getElem?
  intro j
  rw [List.getElem?_set]
  by_cases hnj : n = j
  · subst hnj
    rw [if_pos rfl, if_pos h, List.getElem?_eq_getElem h]
  · rw [if_neg hnj]

theorem Set_oob (b : Takuzu) (l c : Nat) (v : Int)
    (h : b.board.length ≤ l ∨ (b.board.getD l []).length ≤ c) : b.Set l c v = b := by
  rcases h with h | h
  · unfold Takuzu.Set
    split <;>
    · show Takuzu.mk b.size _ = b
      rw [List.set_eq_of_length_le h]
  · by_cases hbl : l < b.board.length
    · have hrow : b.board.getD l [] = b.board[l] := by
        rw [List.getD_eq_getElem?_getD, List.getElem?_eq_getElem hbl]
        rfl
      unfold Takuzu.Set
      split <;>
      · show Takuzu.mk b.size _ = b
        rw [List.set_eq_of_length_le h, hrow, set_getElem_self b.board l hbl]
    · unfold Takuzu.Set
      split <;>
      · show Takuzu.mk b.size _ = b
        rw [List.set_eq_of_length_le (by omega)]

theorem undefCount_Set_le (b : Takuzu) (l c : Nat) (v : Int) (hv : v = 0 ∨ v = 1) :
    (b.Set l c v).undefCount ≤ b.undefCount := by
  by_cases hoob : b.board.length ≤ l ∨ (b.board.getD l []).length ≤ c
  · rw [Set_oob b l c v hoob]
  · push_neg at hoob
    unfold Takuzu.undefCount
    rw [size_Set]
    apply filter_length_le
    intro p hp hq
    by_cases hpe : p = (l, c)
    · subst hpe
      rw [getCell_Set_self b l c v hoob.1 hoob.2 hv] at hq
      simp at hq
    · rwa [getCell_Set_ne b l c v (by
        rcases p with ⟨p1, p2⟩
        simp only [Prod.mk.injEq] at hpe
        tauto)] at hq

theorem undefCount_Set_lt (b : Takuzu) (l c : Nat) (v : Int) (hv : v = 0 ∨ v = 1)
    (hwf : b.WF) (hl : l < b.size) (hc : c < b.size)
    (hu : (b.getCell l c).defined = false) :
    (b.Set l c v).undefCount < b.undefCount := by
  have hbl : l < b.board.length := by rw [hwf.1]; omega
  have hbc : c < (b.board.getD l []).length := by
    rw [show (b.board.getD l []).length = b.size from GetLine_length b l hwf hl]
    omega
  unfold Takuzu.undefCount
  rw [size_Set]
  refine filter_length_lt _ _ _ ?_ (l, c) ?_ ?_ ?_
  · intro p hp hq
    by_cases hpe : p = (l, c)
    · subst hpe
      rw [getCell_Set_self b l c v hbl hbc hv] at hq
      simp at hq
    · rwa [getCell_Set_ne b l c v (by
        rcases p with ⟨p1, p2⟩
        simp only [Prod.mk.injEq] at hpe
        tauto)] at hq
  · rw [mem_allPositions]
    exact ⟨hl, hc⟩
  · simp [hu]
  · rw [getCell_Set_self b l c v hbl hbc hv]
    simp

theorem Extends_refl (b : Takuzu) : Extends b b :=
  ⟨rfl, fun _ _ _ => rfl⟩

theorem Extends_trans {a b c : Takuzu} (h1 : Extends a b) (h2 : Extends b c) :
    Extends a c := by
  refine ⟨h1.1.trans h2.1, fun l cc hd => ?_⟩
  have hb := h1.2 l cc hd
  have hbd : (b.getCell l cc).defined = true := by rw [hb]; exact hd
  rw [h2.2 l cc hbd, hb]

theorem Extends_undef {g t : Takuzu} (h : Extends g t) (l c : Nat)
    (hu : (t.getCell l c).defined = false) : (g.getCell l c).defined = false := by
  by_contra hc
  have := h.2 l c (by simpa using hc)
  rw [this] at hu
  simp_all

theorem Extends_Set {g t : Takuzu} (h : Extends g t) (l c : Nat) (v : Int)
    (hu : (g.getCell l c).defined = false) : Extends g (t.Set l c v) := by
  refine ⟨by rw [h.1, size_Set], fun l' c' hd => ?_⟩
  by_cases hpe : l' = l ∧ c' = c
  · obtain ⟨he1, he2⟩ := hpe
    subst he1; subst he2
    rw [hu] at hd
    exact absurd hd (by simp)
  · rw [getCell_Set_ne t l c v (by tauto)]
    exact h.2 l' c' hd

theorem foldl_pass_props (g : Takuzu) (n : Nat) :
    ∀ ps : List (Nat × Nat), (∀ p ∈ ps, p.1 < n ∧ p.2 < n) →
      ∀ st : Takuzu × Bool, st.1.WF → st.1.size = n → Extends g st.1 →
        (ps.foldl passStep st).1.WF ∧ (ps.foldl passStep st).1.size = n ∧
          Extends g (ps.foldl passStep st).1 ∧
          (ps.foldl passStep st).1.undefCount ≤ st.1.undefCount ∧
          (st.2 = false → (ps.foldl passStep st).2 = true →
            (ps.foldl passStep st).1.undefCount < st.1.undefCount) := by
  intro ps
  induction ps with
  | nil =>
    intro _ st h1 h2 h3
    exact ⟨h1, h2, h3, le_refl _, by intro hf ht; rw [List.foldl_nil] at ht; simp_all⟩
  | cons p ps ih =>
    intro hmem st h1 h2 h3
    have hmem' : ∀ q ∈ ps, q.1 < n ∧ q.2 < n :=
      fun q hq => hmem q (List.mem_cons_of_mem p hq)
    rw [List.foldl_cons]
    by_cases hd : ((st.1).getCell p.1 p.2).defined
    · rw [show passStep st p = st from by unfold passStep; rw [if_pos hd]]
      exact ih hmem' st h1 h2 h3
    · by_cases hg : (st.1).guessPos p.1 p.2 = -1
      · rw [show passStep st p = st from by
          unfold passStep; dsimp only; rw [if_neg hd, if_neg (by simp [hg])]]
        exact ih hmem' st h1 h2 h3
      · have hv01 : (st.1).guessPos p.1 p.2 = 0 ∨ (st.1).guessPos p.1 p.2 = 1 := by
          rcases guessPos_mem st.1 p.1 p.2 with h | h | h
          · exact absurd h hg
          · exact Or.inl h
          · exact Or.inr h
        rw [show passStep st p = ((st.1).Set p.1 p.2 ((st.1).guessPos p.1 p.2), true) from by
          unfold passStep; dsimp only; rw [if_neg hd, if_pos (by simp [hg])]]
        have hpn := hmem p (List.mem_cons_self p ps)
        have hlt : ((st.1).Set p.1 p.2 ((st.1).guessPos p.1 p.2)).undefCount <
            (st.1).undefCount :=
          undefCount_Set_lt st.1 p.1 p.2 _ hv01 h1 (by omega) (by omega) (by simpa using hd)
        have hnew : ((st.1).Set p.1 p.2 ((st.1).guessPos p.1 p.2)).WF :=
          WF_Set st.1 p.1 p.2 _ h1
        have hsz : ((st.1).Set p.1 p.2 ((st.1).guessPos p.1 p.2)).size = n := by
          rw [size_Set]; exact h2
        have hex : Extends g ((st.1).Set p.1 p.2 ((st.1).guessPos p.1 p.2)) :=
          Extends_Set h3 p.1 p.2 _ (Extends_undef h3 p.1 p.2 (by simpa using hd))
        obtain ⟨r1, r2, r3, r4, -⟩ := ih hmem'
          ((st.1).Set p.1 p.2 ((st.1).guessPos p.1 p.2), true) hnew hsz hex
        dsimp only at r4
        exact ⟨r1, r2, r3, by omega, fun _ _ => by omega⟩

theorem pass_props (g b : Takuzu) (hwf : b.WF) (hext : Extends g b) :
    (b.trySolveTrivialPass).1.WF ∧ (b.trySolveTrivialPass).1.size = b.size ∧
      Extends g (b.trySolveTrivialPass).1 ∧
      (b.trySolveTrivialPass).1.undefCount ≤ b.undefCount ∧
      ((b.trySolveTrivialPass).2 = true →
        (b.trySolveTrivialPass).1.undefCount < b.undefCount) := by
  have h := foldl_pass_props g b.size (allPositions b.size)
    (fun p hp => (mem_allPositions b.size p).mp hp) (b, false) hwf rfl hext
  unfold Takuzu.trySolveTrivialPass
  exact ⟨h.1, h.2.1, h.2.2.1, h.2.2.2.1, fun ht => h.2.2.2.2 rfl ht⟩

theorem trivialLoop_succ (k : Nat) (b : Takuzu) :
    Takuzu.trivialLoop (k + 1) b =
      if (b.trySolveTrivialPass).2 = true then
        Takuzu.trivialLoop k (b.trySolveTrivialPass).1
      else (b.trySolveTrivialPass).1 := by
  cases hp : b.trySolveTrivialPass with
  | mk b1 ch =>
    simp only [Takuzu.trivialLoop, hp]

theorem trivialLoop_props (g : Takuzu) :
    ∀ fuel (b : Takuzu), b.WF → Extends g b →
      (Takuzu.trivialLoop fuel b).WF ∧ (Takuzu.trivialLoop fuel b).size = b.size ∧
        Extends g (Takuzu.trivialLoop fuel b) := by
  intro fuel
  induction fuel with
  | zero => intro b h1 h3; exact ⟨h1, rfl, h3⟩
  | succ k ih =>
    intro b h1 h3
    rw [trivialLoop_succ]
    obtain ⟨p1, p2, p3, -, -⟩ := pass_props g b h1 h3
    by_cases hch : (b.trySolveTrivialPass).2 = true
    · rw [if_pos hch]
      obtain ⟨q1, q2, q3⟩ := ih _ p1 p3
      exact ⟨q1, by rw [q2, p2], q3⟩
    · rw [if_neg hch]
      exact ⟨p1, p2, p3⟩

theorem trivialLoop_fix :
    ∀ fuel (b : Takuzu), b.WF → b.undefCount < fuel →
      (Takuzu.trivialLoop fuel b).trySolveTrivialPass = (Takuzu.trivialLoop fuel b, false) := by
  intro fuel
  induction fuel with
  | zero => intro b _ h; omega
  | succ k ih =>
    intro b hwf hcnt
    rw [trivialLoop_succ]
    cases hp : b.trySolveTrivialPass with
    | mk b1 ch =>
      cases ch with
      | false =>
        have hb1 : b1 = b := pass_false b b1 hp
        subst hb1
        simp only [hp]
        simpa using hp
      | true =>
        simp only [hp]
        obtain ⟨p1, -, -, -, p5⟩ := pass_props b b hwf (Extends_refl b)
        rw [hp] at p1 p5
        simp only at p1 p5
        exact ih b1 p1 (by have := p5 (by trivial); omega)

/-- C6: running TrySolveTrivial on the board it produced changes nothing:
the second run returns the same board, the same all-defined flag and the
same validation error as the first. -/
theorem trySolveTrivial_idempotent (b : Takuzu) (hwf : b.WF) :
    ((b.TrySolveTrivial).1).TrySolveTrivial = b.TrySolveTrivial := by
  have hfix := trivialLoop_fix (b.undefCount + 1) b hwf (by omega)
  unfold Takuzu.TrySolveTrivial
  have h2 : Takuzu.trivialLoop
      ((Takuzu.trivialLoop (b.undefCount + 1) b).undefCount + 1)
      (Takuzu.trivialLoop (b.undefCount + 1) b) =
        Takuzu.trivialLoop (b.undefCount + 1) b := by
    rw [trivialLoop_succ, hfix]
    simp
  rw [h2]

/-- Witness for C6 at the concrete valid 4x4 board. -/
theorem trySolveTrivial_idempotent_witness :
    w4.WF ∧ ((w4.TrySolveTrivial).1).TrySolveTrivial = w4.TrySolveTrivial :=
  ⟨by decide, trySolveTrivial_idempotent w4 (by decide)⟩

/-! ## The global-search solver invariant (C3) -/

theorem trySolveTrivial_props (g b : Takuzu) (hwf : b.WF) (hext : Extends g b) :
    (b.TrySolveTrivial.1).WF ∧ (b.TrySolveTrivial.1).size = b.size ∧
      Extends g (b.TrySolveTrivial.1) ∧
      (b.TrySolveTrivial.1).Validate = (b.TrySolveTrivial.2.1, b.TrySolveTrivial.2.2) := by
  obtain ⟨h1, h2, h3⟩ := trivialLoop_props g (b.undefCount + 1) b hwf hext
  exact ⟨h1, h2, h3, rfl⟩

theorem SolInv_nil (g : Takuzu) : SolInv g ⟨[], none⟩ := by
  constructor
  · exact List.Pairwise.nil
  · intro p hp
    exact absurd hp (List.not_mem_nil p)

theorem SolInv_record (g t : Takuzu) (st : SolState) (global : Bool)
    (hinv : SolInv g st) (hval : t.Validate = (true, none)) (hwf : t.WF)
    (hext : Extends g t) : SolInv g (recordSol global t st) := by
  unfold recordSol
  cases global with
  | false => exact ⟨hinv.1, fun p hp => hinv.2 p (by simpa using hp)⟩
  | true =>
    simp only [if_pos]
    constructor
    · refine List.Pairwise.cons ?_ (hinv.1.sublist (List.filter_sublist _))
      intro q hq
      have := List.of_mem_filter hq
      simp only [decide_eq_true_eq] at this
      exact fun he => this he.symm
    · intro p hp
      rcases List.mem_cons.mp hp with hp | hp
      · subst hp
        exact ⟨rfl, hval, hwf, hext⟩
      · exact hinv.2 p (List.mem_of_mem_filter hp)

theorem firstUndef_props (t : Takuzu) (line col : Nat)
    (h : t.firstUndef = some (line, col)) :
    line < t.size ∧ col < t.size ∧ (t.getCell line col).defined = false := by
  unfold Takuzu.firstUndef at h
  have hmem := List.mem_of_find?_eq_some h
  have hpred := List.find?_some h
  rw [mem_allPositions] at hmem
  simp only [Bool.not_eq_true'] at hpred
  exact ⟨hmem.1, hmem.2, hpred⟩

theorem SolInv_finishNode (g t : Takuzu) (st : SolState) (global : Bool)
    (hinv : SolInv g st) (hwf : t.WF) (hext : Extends g t) :
    SolInv g (finishNode global t st).1 := by
  unfold finishNode
  cases hv : t.Validate with
  | mk fullv e =>
    cases e with
    | some er => exact hinv
    | none =>
      cases fullv with
      | false => simpa using hinv
      | true =>
        simp only
        exact SolInv_record g t st global hinv hv hwf hext

theorem recurseSolve_inv (global : Bool) (g : Takuzu) :
    ∀ fuel (t : Takuzu) (st : SolState), t.WF → Extends g t → SolInv g st →
      SolInv g (recurseSolve global fuel t st).1 := by
  intro fuel
  induction fuel with
  | zero => intro t st _ _ hinv; exact hinv
  | succ fuel ih =>
    intro t st hwf hext hinv
    obtain ⟨ht1, ht2, ht3, ht4⟩ := trySolveTrivial_props g t hwf hext
    simp only [recurseSolve]
    cases herr : t.TrySolveTrivial.2.2 with
    | some e => exact hinv
    | none =>
      simp only
      by_cases hfull : t.TrySolveTrivial.2.1 = true
      · rw [if_pos hfull]
        refine SolInv_record g _ st global hinv ?_ ht1 ht3
        rw [ht4, hfull, herr]
      · rw [if_neg hfull]
        cases hfu : (t.TrySolveTrivial.1).firstUndef with
        | none => exact SolInv_finishNode g _ st global hinv ht1 ht3
        | some lc =>
          rcases lc with ⟨line, col⟩
          obtain ⟨hl, hc, hu⟩ := firstUndef_props _ _ _ hfu
          have hgu : (g.getCell line col).defined = false := Extends_undef ht3 line col hu
          have hch0 : ((t.TrySolveTrivial.1).Clone.Set line col 0).WF :=
            WF_Set _ _ _ _ ht1
          have hce0 : Extends g ((t.TrySolveTrivial.1).Clone.Set line col 0) :=
            Extends_Set ht3 line col 0 hgu
          have hinv0 := ih _ st hch0 hce0 hinv
          simp only
          cases global with
          | true =>
            rw [if_pos rfl]
            cases hr0 : recurseSolve true fuel ((t.TrySolveTrivial.1).Clone.Set line col 0) st with
            | mk st1 e0 =>
              rw [hr0] at hinv0
              simp only at hinv0
              by_cases htm0 : e0 = some .timeout
              · rw [if_pos (by simpa using htm0)]
                exact hinv0
              · rw [if_neg (by simpa using htm0)]
                have ht2wf : (if e0.isSome then (t.TrySolveTrivial.1).Set line col 1
                    else t.TrySolveTrivial.1).WF := by
                  split
                  · exact WF_Set _ _ _ _ ht1
                  · exact ht1
                have ht2ex : Extends g (if e0.isSome then (t.TrySolveTrivial.1).Set line col 1
                    else t.TrySolveTrivial.1) := by
                  split
                  · exact Extends_Set ht3 line col 1 hgu
                  · exact ht3
                have hinv1 := ih ((if e0.isSome then (t.TrySolveTrivial.1).Set line col 1
                    else t.TrySolveTrivial.1).Clone.Set line col 1) st1
                  (WF_Set _ _ _ _ ht2wf) (Extends_Set ht2ex line col 1 hgu) hinv0
                cases hr1 : recurseSolve true fuel
                    ((if e0.isSome then (t.TrySolveTrivial.1).Set line col 1
                      else t.TrySolveTrivial.1).Clone.Set line col 1) st1 with
                | mk st2 e1 =>
                  rw [hr1] at hinv1
                  simp only at hinv1 ⊢
                  by_cases htm1 : e1 = some .timeout
                  · rw [if_pos (by simpa using htm1)]
                    exact hinv1
                  · rw [if_neg (by simpa using htm1)]
                    have ht3wf : (if e1.isSome then
                        (if e0.isSome then (t.TrySolveTrivial.1).Set line col 1
                          else t.TrySolveTrivial.1).Set line col 0
                        else (if e0.isSome then (t.TrySolveTrivial.1).Set line col 1
                          else t.TrySolveTrivial.1)).WF := by
                      split
                      · exact WF_Set _ _ _ _ ht2wf
                      · exact ht2wf
                    have ht3ex : Extends g (if e1.isSome then
                        (if e0.isSome then (t.TrySolveTrivial.1).Set line col 1
                          else t.TrySolveTrivial.1).Set line col 0
                        else (if e0.isSome then (t.TrySolveTrivial.1).Set line col 1
                          else t.TrySolveTrivial.1)) := by
                      split
                      · exact Extends_Set ht2ex line col 0 hgu
                      · exact ht2ex
                    split
                    · exact hinv1
                    · exact SolInv_finishNode g _ _ true hinv1 ht3wf ht3ex
          | false =>
            rw [if_neg (by simp)]
            cases hr0 : recurseSolve false fuel
                ((t.TrySolveTrivial.1).Clone.Set line col 0) st with
            | mk st1 e0 =>
              rw [hr0] at hinv0
              simp only at hinv0
              cases e0 with
              | none => exact hinv0
              | some er =>
                cases er with
                | timeout => exact hinv0
                | invalid e2 =>
                  exact ih _ _ (WF_Set _ _ _ _ ht1) (Extends_Set ht3 line col 1 hgu) hinv0
                | deadEnd =>
                  exact ih _ _ (WF_Set _ _ _ _ ht1) (Extends_Set ht3 line col 1 hgu) hinv0

theorem trySolveRecurse_sols (b : Takuzu) (global : Bool) (fuel : Nat) :
    (b.TrySolveRecurse global fuel).2.1 =
      ((recurseSolve global fuel b ⟨[], none⟩).1.map.map fun p => p.2) := by
  unfold Takuzu.TrySolveRecurse
  dsimp only
  cases hsc : (recurseSolve global fuel b ⟨[], none⟩).2 with
  | some e => rfl
  | none => split <;> first | rfl | (split <;> rfl)

/-- C3: in global-search mode the boards accumulated by TrySolveRecurse
have pairwise distinct encodings, each is a fully defined board that
Validate accepts, and each preserves every defined cell of the input. -/
theorem trySolveRecurse_global_sound (b : Takuzu) (fuel : Nat) (hwf : b.WF)
    (hnt : (b.TrySolveRecurse true fuel).2.2 ≠ some .timeout) :
    ((b.TrySolveRecurse true fuel).2.1.Pairwise fun s1 s2 =>
      s1.ToString ≠ s2.ToString) ∧
    ∀ s ∈ (b.TrySolveRecurse true fuel).2.1,
      (∀ l c, l < s.size → c < s.size → (s.getCell l c).defined = true) ∧
      s.Validate = (true, none) ∧ Extends b s := by
  have hinv := recurseSolve_inv true b fuel b ⟨[], none⟩ hwf (Extends_refl b) (SolInv_nil b)
  rw [trySolveRecurse_sols]
  obtain ⟨hpw, hent⟩ := hinv
  constructor
  · have h1 : (recurseSolve true fuel b ⟨[], none⟩).1.map.Pairwise
        (fun p q => p.2.ToString ≠ q.2.ToString) := by
      refine hpw.imp_of_mem ?_
      intro p q hp hq hne
      rw [← (hent p hp).1, ← (hent q hq).1]
      exact hne
    exact List.pairwise_map.mpr h1
  · intro s hs
    rw [List.mem_map] at hs
    obtain ⟨p, hp, hps⟩ := hs
    obtain ⟨hk, hval, hswf, hsext⟩ := hent p hp
    subst hps
    exact ⟨fun l c hl hc => validate_true_all_defined p.2 hswf none hval l c hl hc,
      hval, hsext⟩

/-- Witness for C3 at the concrete valid 4x4 board. -/
theorem trySolveRecurse_global_sound_witness :
    w4.WF ∧ (w4.TrySolveRecurse true 1).2.2 ≠ some .timeout ∧
      ((w4.TrySolveRecurse true 1).2.1.Pairwise fun s1 s2 =>
        s1.ToString ≠ s2.ToString) :=
  ⟨by decide, by decide, (trySolveRecurse_global_sound w4 1 (by decide) (by decide)).1⟩

/-! ## The S1 scenario (C7) -/

set_option maxRecDepth 100000 in
/-- C7: decoding the S1 puzzle string yields a 6x6 board, and the
recursive solver in first-solution mode (nil accumulator, no timeout
pressure) succeeds and returns the expected solution encoding. -/
theorem solver_s1_scenario :
    ((NewFromString s7).map fun b =>
      (b.size, (b.TrySolveRecurse false 40).2.2,
        ((b.TrySolveRecurse false 40).1.map Takuzu.ToString))) =
      .ok (6, none, some t7) := by
  rfl
